import Mathlib

/-!
Shallow embedding of the inference core of the wumpus-world-agent repository:
`src/modules/inference/logic.py`, `src/modules/inference/knowledge.py`,
`src/modules/inference/infer_engine.py` and `src/modules/planning/bayes_net.py`.

Python sets are modelled as `Finset`, Python floats as `ℚ`, fallible calls as
`Except`.  Dictionaries whose key space is exhaustively populated (the factor
tables of `bayes_net.py`) are modelled as total functions from their key tuples.
-/

namespace WumpusKB

/-- A literal (`logic.py`, class `Literal`): a propositional variable name with a
sign (`True` positive, `False` negated).  Equality and hashing are on the
`(name, sign)` pair. -/
structure Literal where
  name : String
  sign : Bool
deriving DecidableEq

/-- `Literal.__invert__`: negation flips the sign. -/
def litNeg (l : Literal) : Literal := ⟨l.name, !l.sign⟩

/-- A clause (`logic.py`, class `Clause`): a set of literals, interpreted as
their disjunction.  `Clause.__eq__` is set equality, so a `Finset`. -/
abbrev Clause := Finset Literal

/-- Predicate constructor `wumpus(i, j)` with canonical name `W_i_j`. -/
def wumpus (i j : Int) : Literal := ⟨"W_" ++ toString i ++ "_" ++ toString j, true⟩

/-- Predicate constructor `pit(i, j)` with canonical name `P_i_j`. -/
def pit (i j : Int) : Literal := ⟨"P_" ++ toString i ++ "_" ++ toString j, true⟩

/-- Predicate constructor `breeze(i, j)` with canonical name `B_i_j`. -/
def breeze (i j : Int) : Literal := ⟨"B_" ++ toString i ++ "_" ++ toString j, true⟩

/-- Predicate constructor `stench(i, j)` with canonical name `S_i_j`. -/
def stench (i j : Int) : Literal := ⟨"S_" ++ toString i ++ "_" ++ toString j, true⟩

/-- Predicate constructor `glitter()` with canonical name `Glitter`. -/
def glitterLit : Literal := ⟨"Glitter", true⟩

/-- `Literal.__or__` with a `Literal` operand: `Clause(self, other)`.
No tautology check is performed in this branch of the source. -/
def litOrLit (a b : Literal) : Clause := {a, b}

/-- `Literal.__or__` with a `Clause` operand: if `~self in other` the source
returns `Clause()` (the empty clause), else `Clause(self, *other.literals)`. -/
def litOrClause (a : Literal) (c : Clause) : Clause :=
  if litNeg a ∈ c then (∅ : Clause) else insert a c

/-- `Clause.__or__` with a `Literal` operand: `Clause(*self.literals, other)`.
No tautology check is performed in this branch of the source. -/
def clauseOrLit (c : Clause) (b : Literal) : Clause := insert b c

/-- `Clause.__or__` with a `Clause` operand: if some literal of `other` has its
negation in `self`, the source returns `Clause()` (the empty clause), else the
union of the two literal sets. -/
def clauseOrClause (c d : Clause) : Clause :=
  if ∃ l ∈ d, litNeg l ∈ c then (∅ : Clause) else c ∪ d

/-- `Clause.__invert__`: for a unit clause the negated unit clause, otherwise
the collection of negated unit clauses (a Python list, immediately consumed as
a set at every call site, hence a `Finset` here). -/
def clauseInvert (c : Clause) : Clause ⊕ Finset Clause :=
  if c.card = 1 then Sum.inl (c.image litNeg)
  else Sum.inr (c.image (fun l => ({litNeg l} : Clause)))

/-- `Clause.simplify(model)`: `None` (satisfied) if some literal is in the
model; otherwise the clause with every literal whose negation is in the model
removed.  The Python loop inspects literals one by one; the result is
order-independent, as expressed here. -/
def simplifyCl (c : Clause) (model : Finset Literal) : Option Clause :=
  if ∃ l ∈ c, l ∈ model then none
  else some (c.filter (fun l => litNeg l ∉ model))

/-- Truth of a clause under a total assignment of the propositional symbols:
some disjunct agrees with the assignment. -/
def satisfiesClause (v : String → Bool) (c : Clause) : Prop :=
  ∃ l ∈ c, v l.name = l.sign

/-- Satisfiability of a clause set. -/
def satSet (S : Finset Clause) : Prop :=
  ∃ v : String → Bool, ∀ c ∈ S, satisfiesClause v c

/-- `Literal.__repr__`: `¬` prefix for a negative literal. -/
def litRepr (l : Literal) : String := (if l.sign then "" else "¬") ++ l.name

/-- Lexicographic comparison of character lists by code point, structurally
recursive so that it evaluates inside the kernel (Python's string order). -/
def charListLEb : List Char → List Char → Bool
  | [], _ => true
  | _ :: _, [] => false
  | a :: as, b :: bs =>
    if a.toNat < b.toNat then true
    else if b.toNat < a.toNat then false
    else charListLEb as bs

/-- Python's `<=` on strings: lexicographic by code point. -/
def strLE (a b : String) : Prop := charListLEb a.data b.data = true

instance : DecidableRel strLE := fun a b => by
  unfold strLE; infer_instance

theorem charListLEb_total : ∀ as bs, charListLEb as bs = true ∨ charListLEb bs as = true
  | [], _ => Or.inl rfl
  | _ :: _, [] => Or.inr rfl
  | a :: as, b :: bs => by
    by_cases h1 : a.toNat < b.toNat
    · exact Or.inl (by simp [charListLEb, h1])
    · by_cases h2 : b.toNat < a.toNat
      · exact Or.inr (by simp [charListLEb, h2])
      · rcases charListLEb_total as bs with h | h
        · exact Or.inl (by simp [charListLEb, h1, h2, h])
        · exact Or.inr (by simp [charListLEb, h1, h2, h])

theorem charListLEb_antisymm : ∀ as bs, charListLEb as bs = true →
    charListLEb bs as = true → as = bs
  | [], [], _, _ => rfl
  | [], _ :: _, _, h => by simp [charListLEb] at h
  | _ :: _, [], h, _ => by simp [charListLEb] at h
  | a :: as, b :: bs, hab, hba => by
    by_cases h1 : a.toNat < b.toNat
    · simp [charListLEb, h1, Nat.lt_asymm h1] at hba
    · by_cases h2 : b.toNat < a.toNat
      · simp [charListLEb, h1, h2] at hab
      · have hn : a.toNat = b.toNat := by omega
        have hc : a = b := Char.eq_of_val_eq (UInt32.ext hn)
        simp only [charListLEb, h1, h2, if_false] at hab hba
        rw [hc, charListLEb_antisymm as bs hab hba]

theorem charListLEb_trans : ∀ as bs cs, charListLEb as bs = true →
    charListLEb bs cs = true → charListLEb as cs = true
  | [], _, _, _, _ => rfl
  | _ :: _, [], _, h, _ => by simp [charListLEb] at h
  | _ :: _, _ :: _, [], _, h => by simp [charListLEb] at h
  | a :: as, b :: bs, c :: cs, hab, hbc => by
    simp only [charListLEb] at hab hbc ⊢
    by_cases h1 : a.toNat < b.toNat <;> by_cases h2 : b.toNat < c.toNat
    · simp [Nat.lt_trans h1 h2]
    · simp [h2] at hbc
      rcases hbc with ⟨h3, _⟩
      have : a.toNat < c.toNat := by omega
      simp [this]
    · simp [h1] at hab
      rcases hab with ⟨h3, _⟩
      have : a.toNat < c.toNat := by omega
      simp [this]
    · simp [h1] at hab
      simp [h2] at hbc
      rcases hab with ⟨h3, hab⟩
      rcases hbc with ⟨h4, hbc⟩
      have h5 : ¬ a.toNat < c.toNat := by omega
      have h6 : ¬ c.toNat < a.toNat := by omega
      simp [h5, h6, charListLEb_trans as bs cs hab hbc]

theorem strLE_total (a b : String) : strLE a b ∨ strLE b a := charListLEb_total _ _

theorem strLE_antisymm {a b : String} (h1 : strLE a b) (h2 : strLE b a) : a = b := by
  cases a; cases b
  exact congrArg String.mk (charListLEb_antisymm _ _ h1 h2)

theorem strLE_trans {a b c : String} (h1 : strLE a b) (h2 : strLE b c) : strLE a c :=
  charListLEb_trans _ _ _ h1 h2

instance : IsTrans String strLE := ⟨fun _ _ _ => strLE_trans⟩

instance : IsAntisymm String strLE := ⟨fun _ _ => strLE_antisymm⟩

instance : IsTotal String strLE := ⟨strLE_total⟩

/-- The sort key used by `Clause.__repr__` (`key=lambda x: (x.sign, x.name)`,
with `False < True` on booleans and lexicographic order on names). -/
def litLE (a b : Literal) : Prop :=
  (a.sign = false ∧ b.sign = true) ∨ (a.sign = b.sign ∧ strLE a.name b.name)

instance : DecidableRel litLE := fun a b => by
  unfold litLE; infer_instance

instance : IsTrans Literal litLE := by
  constructor
  intro a b c hab hbc
  rcases hab with ⟨ha, hb⟩ | ⟨hab, hnab⟩ <;> rcases hbc with ⟨hb2, hc⟩ | ⟨hbc, hnbc⟩
  · exact absurd hb2 (by simp [hb])
  · exact Or.inl ⟨ha, hbc ▸ hb⟩
  · exact Or.inl ⟨hab.trans hb2, hc⟩
  · exact Or.inr ⟨hab.trans hbc, strLE_trans hnab hnbc⟩

instance : IsAntisymm Literal litLE := by
  constructor
  intro a b hab hba
  rcases hab with ⟨ha, hb⟩ | ⟨hab, hnab⟩ <;> rcases hba with ⟨hb2, ha2⟩ | ⟨hba, hnba⟩
  · exact absurd ha2 (by simp [ha])
  · exact absurd hba (by simp [ha, hb])
  · exact absurd hb2 (by simp [hab ▸ ha2])
  · cases a; cases b
    simp only [Literal.mk.injEq]
    exact ⟨strLE_antisymm hnab hnba, hab⟩

instance : IsTotal Literal litLE := by
  constructor
  intro a b
  rcases ha : a.sign <;> rcases hb : b.sign
  · rcases strLE_total a.name b.name with h | h
    · exact Or.inl (Or.inr ⟨by simp [ha, hb], h⟩)
    · exact Or.inr (Or.inr ⟨by simp [ha, hb], h⟩)
  · exact Or.inl (Or.inl ⟨ha, hb⟩)
  · exact Or.inr (Or.inl ⟨hb, ha⟩)
  · rcases strLE_total a.name b.name with h | h
    · exact Or.inl (Or.inr ⟨by simp [ha, hb], h⟩)
    · exact Or.inr (Or.inr ⟨by simp [ha, hb], h⟩)

/-- The sorted list of the elements of a finite set.  Same specification as
`Finset.sort`, but built on the structurally recursive `insertionSort` so that
it evaluates inside the kernel. -/
def sortedListOf {α : Type} (r : α → α → Prop) [DecidableRel r] [IsTrans α r]
    [IsAntisymm α r] [IsTotal α r] (s : Finset α) : List α :=
  Quot.liftOn s.val (fun l => l.insertionSort r) (fun a b h =>
    List.eq_of_perm_of_sorted
      (((a.perm_insertionSort r).trans h).trans (b.perm_insertionSort r).symm)
      (List.sorted_insertionSort r a) (List.sorted_insertionSort r b))

/-- `Clause.__repr__`: the literals sorted by `(sign, name)`, joined by `∨`. -/
def clauseRepr (c : Clause) : String :=
  String.intercalate " ∨ " ((sortedListOf litLE c).map litRepr)

/-- The model collected at the top of `KnowledgeBase.refresh`:
`{c.unit() for c in self.clauses if c.is_unit()}`. -/
def unitLits (S : Finset Clause) : Finset Literal :=
  S.biUnion (fun c => if c.card = 1 then c else ∅)

/-- Whether `refresh` keeps the simplification of a clause: kept unless
`simplify` returned `None` (satisfied) or the empty clause. -/
def keepRes (c : Clause) (model : Finset Literal) : Bool :=
  match simplifyCl c model with
  | none => false
  | some r => if r = ∅ then false else true

/-- The simplified clause kept by `refresh` (meaningful when `keepRes`). -/
def resOf (c : Clause) (model : Finset Literal) : Clause :=
  (simplifyCl c model).getD ∅

/-- One pass of the `refresh` loop: the kept simplifications of all clauses,
together with the unit clauses of the model re-added
(`new_clauses.union({Clause(lit) for lit in model})`). -/
def propagate (S : Finset Clause) : Finset Clause :=
  ((S.filter (fun c => keepRes c (unitLits S))).image (fun c => resOf c (unitLits S)))
    ∪ (unitLits S).image (fun l => ({l} : Clause))

/-- Termination measure for `refresh`: total literal count plus clause count. -/
def weight (S : Finset Clause) : Nat := S.sum (fun c => c.card + 1)

/-- `KnowledgeBase.refresh`, fuelled.  The source recurses until the clause set
stops changing; `weight` strictly decreases at every change (proved below), so
`refresh` below always supplies enough fuel. -/
def refreshAux : Nat → Finset Clause → Finset Clause
  | 0, S => S
  | n + 1, S =>
    if unitLits S = ∅ then S
    else
      let N := propagate S
      if N = S then S else refreshAux n N

/-- `KnowledgeBase.refresh`: unit propagation of the clause set to fixpoint.
Clauses that simplify to `None` (satisfied) or to the empty clause are
silently discarded by the source. -/
def refresh (S : Finset Clause) : Finset Clause := refreshAux (weight S + 1) S

/-- `KnowledgeBase` (`knowledge.py`): grid size, wumpus count and the clause
set.  The `infer_engine` field always holds `DPLLEngine`, embedded directly in
the ask operations below. -/
structure KnowledgeBase where
  size : Nat
  nWumpus : Nat
  clauses : Finset Clause
deriving DecidableEq

/-- The initializer clause chain of `KnowledgeBase.__init__`:
`~(wumpus(0, 0) | pit(0, 0) | glitter())`.  The chain produces a three-literal
clause, whose inversion is the collection of three negated unit clauses; the
unit branch of `__invert__` would make `set(...)` iterate literals instead of
clauses and is not reached here, modelled by the `∅` arm. -/
def kbNew (size k : Nat) : KnowledgeBase :=
  { size := size
    nWumpus := k
    clauses :=
      (clauseInvert (clauseOrLit (litOrLit (wumpus 0 0) (pit 0 0)) glitterLit)).elim
        (fun _ => ∅) id }

/-- An argument to `KnowledgeBase.tell`: a `Literal`, a `Clause`, or a value of
any other type (rejected by the `isinstance` check). -/
inductive TellArg where
  | lit (l : Literal)
  | clause (c : Clause)
  | other
deriving DecidableEq

/-- Whether a tell argument fails the `isinstance(clause, (Literal, Clause))`
check. -/
def TellArg.isOther : TellArg → Bool
  | .other => true
  | _ => false

/-- `Clause(clause) if isinstance(clause, Literal) else clause`: the
normalization of a tell argument to a clause.  (`other` is unreachable after
validation.) -/
def TellArg.toClause : TellArg → Clause
  | .lit l => {l}
  | .clause c => c
  | .other => ∅

/-- One iteration of the `tell` loop body for a (normalized) clause `new`:
discard `~new` when `new` is a unit clause; when `new` is not unit and every
negated unit is already stored, remove them all; then insert `new`. -/
def tellStep (clauses : Finset Clause) (new : Clause) : Finset Clause :=
  let removed :=
    match clauseInvert new with
    | .inl nc => clauses.erase nc
    | .inr negs => if ∀ c ∈ negs, c ∈ clauses then clauses \ negs else clauses
  removed ∪ {new}

/-- The validated body of `KnowledgeBase.tell`: sort the clauses by their
`repr` (a `Literal` argument and its unit clause print identically, so
normalizing before sorting is equivalent to the source's sort of the mixed
list), run the insertion loop, then `refresh`. -/
def tellClauses (kb : KnowledgeBase) (cs : List Clause) : KnowledgeBase :=
  let sorted := cs.insertionSort (fun c d => strLE (clauseRepr c) (clauseRepr d))
  { kb with clauses := refresh (sorted.foldl tellStep kb.clauses) }

/-- The exceptions raised by the embedded fragments of the source. -/
inductive PyErr where
  | valueError
  | attributeError
  | typeError
  | assertionError
deriving DecidableEq

/-- `KnowledgeBase.tell`: reject the batch with `ValueError` before any
mutation when some argument is neither a `Literal` nor a `Clause`; otherwise
insert the clauses and refresh. -/
def tell (kb : KnowledgeBase) (args : List TellArg) : Except PyErr KnowledgeBase :=
  if args.all (fun a => !a.isOther) then
    .ok (tellClauses kb (args.map TellArg.toClause))
  else .error .valueError

/-- `KnowledgeBase._adjacent(i, j)`: in-bounds orthogonal neighbours, in the
order `(1,0), (-1,0), (0,1), (0,-1)`. -/
def adjacent (size : Nat) (i j : Int) : List (Int × Int) :=
  [((1 : Int), (0 : Int)), (-1, 0), (0, 1), (0, -1)].filterMap (fun d =>
    let ni := i + d.1
    let nj := j + d.2
    if 0 ≤ ni ∧ ni < (size : Int) ∧ 0 ≤ nj ∧ nj < (size : Int) then some (ni, nj)
    else none)

/-- `KnowledgeBase._breeze_axioms(i, j)`: `~B | Clause(*P_adj)` followed by
`~P | B` for each in-bounds neighbour. -/
def breezeRules (size : Nat) (i j : Int) : List Clause :=
  let B := breeze i j
  let padj := (adjacent size i j).map (fun p => pit p.1 p.2)
  litOrClause (litNeg B) padj.toFinset :: padj.map (fun P => litOrLit (litNeg P) B)

/-- `KnowledgeBase._stench_axioms(i, j)`: `~S | Clause(*W_adj)` followed by
`~W | S` for each in-bounds neighbour. -/
def stenchRules (size : Nat) (i j : Int) : List Clause :=
  let S := stench i j
  let wadj := (adjacent size i j).map (fun p => wumpus p.1 p.2)
  litOrClause (litNeg S) wadj.toFinset :: wadj.map (fun W => litOrLit (litNeg W) S)

/-- A percept value: a boolean flag, or the cell coordinates carried by a
`scream` percept. -/
inductive PerceptVal where
  | flag (b : Bool)
  | cell (i j : Int)
deriving DecidableEq

/-- `KnowledgeBase._make_percept_clauses(i, j, percepts)`: the literal for each
recognized percept entry.  The collected values are Python `Literal`s (mixed
later with `Clause` axioms), hence `TellArg`s here. -/
def perceptArgs (i j : Int) (percepts : List (String × PerceptVal)) : List TellArg :=
  percepts.foldr (fun kv acc =>
    (match kv with
     | ("breeze", .flag v) => [TellArg.lit (if v then breeze i j else litNeg (breeze i j))]
     | ("stench", .flag v) => [TellArg.lit (if v then stench i j else litNeg (stench i j))]
     | ("glitter", .flag v) => [TellArg.lit (if v then glitterLit else litNeg glitterLit)]
     | ("scream", .cell x y) => [TellArg.lit (litNeg (wumpus x y)), TellArg.lit (litNeg (pit x y))]
     | _ => []) ++ acc) []

/-- The clause batch assembled by `KnowledgeBase.tell_percept`: percept
literals, the breeze/stench axioms of the cell and of each in-bounds
neighbour, and `~wumpus | ~pit` for each neighbour.  The source collects the
batch in a Python set (deduplicated, then sorted inside `tell`), modelled by
`dedup`. -/
def perceptBatch (size : Nat) (i j : Int) (percepts : List (String × PerceptVal)) :
    List TellArg :=
  (perceptArgs i j percepts
    ++ (breezeRules size i j ++ stenchRules size i j).map TellArg.clause
    ++ (adjacent size i j).foldr (fun p acc =>
        (breezeRules size p.1 p.2 ++ stenchRules size p.1 p.2).map TellArg.clause
          ++ [TellArg.clause (litOrLit (litNeg (wumpus p.1 p.2)) (litNeg (pit p.1 p.2)))]
          ++ acc) []).dedup

/-- `KnowledgeBase.tell_percept(i, j, percepts)`. -/
def tellPercept (kb : KnowledgeBase) (i j : Int)
    (percepts : List (String × PerceptVal)) : Except PyErr KnowledgeBase :=
  tell kb (perceptBatch kb.size i j percepts)

/-- `DPLLEngine._simplify(clauses, lit)`: drop the clauses containing `lit`
and remove `~lit` from the rest. -/
def dpllSimplify (clauses : Finset Clause) (lit : Literal) : Finset Clause :=
  (clauses.filter (fun c => lit ∉ c)).image (fun c => c.erase (litNeg lit))

/-- `DPLLEngine._find_pure_symbol`: the first (in the given symbol order; the
source iterates a Python set) symbol occurring with only one polarity. -/
def findPure (syms : List String) (clauses : Finset Clause) : Option (String × Bool) :=
  syms.findSome? (fun name =>
    let pos := decide (∃ c ∈ clauses, (⟨name, true⟩ : Literal) ∈ c)
    let neg := decide (∃ c ∈ clauses, (⟨name, false⟩ : Literal) ∈ c)
    if pos ≠ neg then some (name, pos) else none)

/-- `DPLLEngine._find_unit_clause`: some unit clause's literal (the source
takes the first in Python set order; the choice is canonicalized here by
`litLE`). -/
def findUnit (clauses : Finset Clause) : Option (String × Bool) :=
  (sortedListOf litLE ((clauses.filter (fun c => c.card = 1)).biUnion id)).head?.map
    (fun l => (l.name, l.sign))

/-- `DPLLEngine._dpll`, fuelled; each recursive call removes one symbol, so
`syms.length + 1` fuel always suffices at the entry point. -/
def dpllAux : Nat → Finset Clause → List String → Finset Literal → Bool × Finset Literal
  | 0, _, _, model => (false, model)
  | n + 1, clauses0, syms, model =>
    let clauses := clauses0.filter (fun c => ¬ ∃ l ∈ c, l ∈ model)
    if clauses = ∅ then (true, model)
    else if (∅ : Clause) ∈ clauses then (false, model)
    else
      match findPure syms clauses with
      | some (name, sign) =>
        dpllAux n (dpllSimplify clauses ⟨name, sign⟩) (syms.erase name)
          (insert (⟨name, sign⟩ : Literal) model)
      | none =>
        match findUnit clauses with
        | some (name, sign) =>
          dpllAux n (dpllSimplify clauses ⟨name, sign⟩) (syms.erase name)
            (insert (⟨name, sign⟩ : Literal) model)
        | none =>
          match syms with
          | [] => (false, model)
          | s :: rest =>
            let tt := dpllAux n (dpllSimplify clauses ⟨s, true⟩) rest
              (insert (⟨s, true⟩ : Literal) model)
            if tt.1 then tt
            else
              let ff := dpllAux n (dpllSimplify clauses ⟨s, false⟩) rest
                (insert (⟨s, false⟩ : Literal) model)
              if ff.1 then ff else (false, model)

/-- `DPLLEngine.__call__(knowledge_base, query)`: add the clause of the
negations of the query literals, collect the symbols, and run DPLL.  Returns
the pair `(not satisfied, model)`. -/
def dpllCall (kb : KnowledgeBase) (query : Clause) : Bool × Finset Literal :=
  let clauses := kb.clauses ∪ {query.image litNeg}
  let symbols := clauses.biUnion (fun c => c.image (fun l => l.name))
  let res := dpllAux (symbols.card + 1) clauses (sortedListOf strLE symbols) ∅
  (!res.1, res.2)

/-- Python truthiness of the pair returned by `DPLLEngine.__call__`: a tuple
is truthy iff nonempty, and this tuple always has two components.
`ask_if_true` applies `not` to the whole pair, not to its first component. -/
def pairTruthy (_ : Bool × Finset Literal) : Bool := true

/-- `KnowledgeBase.ask_if_true(query)`: `True` when every literal is a stored
unit fact, `False` when some negation is, else the engine path.  There,
`sat` is the engine's `(bool, set)` pair: `not sat` is `False` (the pair is
truthy), so the guarded `self.tell(...)` never runs and `False` is returned. -/
def askIfTrue (kb : KnowledgeBase) (query : List Literal) : Bool :=
  if query.all (fun l => ({l} : Clause) ∈ kb.clauses) then true
  else if query.any (fun l => ({litNeg l} : Clause) ∈ kb.clauses) then false
  else
    let sat := dpllCall kb ((query.map litNeg).toFinset)
    !(pairTruthy sat)

/-- `KnowledgeBase.ask_if_inconsistent(query)`: `False` when every query
clause is stored; `True` when some negated unit is stored; otherwise the
source calls `DPLLEngine.__call__(self, query)` with a list of `Clause`s where
a list of `Literal`s is expected.  With only unit query clauses the engine
reaches `lit.name` with `lit` a `Clause` and raises `AttributeError`; a
non-unit query clause makes `~lit` a Python list, and `Clause(...)` raises
`TypeError` on the unhashable element. -/
def askIfInconsistent (kb : KnowledgeBase) (query : List Clause) : Except PyErr Bool :=
  if query.all (fun c => c ∈ kb.clauses) then .ok false
  else
    let negated : Finset Clause := query.foldl (fun acc c =>
      match clauseInvert c with
      | .inl nc => insert nc acc
      | .inr s => acc ∪ s) ∅
    if ∃ c ∈ negated, c ∈ kb.clauses then .ok true
    else if query.all (fun c => c.card = 1) then .error .attributeError
    else .error .typeError

instance {ε α : Type} [DecidableEq ε] [DecidableEq α] : DecidableEq (Except ε α) :=
  fun a b =>
    match a, b with
    | .ok x, .ok y => decidable_of_iff (x = y) (by simp)
    | .error e, .error f => decidable_of_iff (e = f) (by simp)
    | .ok _, .error _ => isFalse (by simp)
    | .error _, .ok _ => isFalse (by simp)

/-!  ### The Bayesian-network component (`bayes_net.py`)

Floats are modelled as `ℚ`.  The factor tables are Python dictionaries whose
key set always covers every assignment tuple of the factor's variables; they
are modelled as total functions from key tuples (`List Bool`) to values.
Events (assignment dictionaries) are modelled as functions `String → Bool`,
and the evidence dictionary as `String → Option Bool`. -/

/-- `1e-12`, the drift tolerance of `clamp_prob`. -/
def eps : ℚ := 1 / 10 ^ 12

/-- `clamp_prob(p)`: snap values within `1e-12` below `0` (above `1`) to `0`
(`1`); all other values, however far outside `[0, 1]`, pass through. -/
def clampProb (p : ℚ) : ℚ :=
  if p < 0 ∧ -eps < p then 0
  else if 1 < p ∧ p < 1 + eps then 1
  else p

/-- A `BayesNode`: parent list and conditional probability table, keyed by the
tuple of parent values in parent order. -/
structure BayesNodeM where
  parents : List String
  cpt : List Bool → ℚ

/-- `BayesNode.p(value, event)`: the clamped CPT entry for the parent values
in `event`, or its complement for `value = False`. -/
def nodeP (nd : BayesNodeM) (value : Bool) (event : String → Bool) : ℚ :=
  let pt := clampProb (nd.cpt (nd.parents.map event))
  if value then pt else 1 - pt

/-- A `BayesNet`: the insertion-ordered variable list and the node for each
variable.  `variable_node` materializes a parentless default node for names
not explicitly added; totality of `node` models this. -/
structure BayesNetM where
  vars : List String
  node : String → BayesNodeM

/-- A `Factor`: ordered variable list and table.  `Factor.__init__` clamps
every stored value, which `mkFactor` reproduces. -/
structure FactorM where
  vars : List String
  table : List Bool → ℚ

/-- `Factor(variables, cpt)`: the constructor clamps all table values. -/
def mkFactor (vs : List String) (t : List Bool → ℚ) : FactorM :=
  ⟨vs, fun k => clampProb (t k)⟩

/-- Reconstruct an event from a factor key: the value paired with the first
occurrence of the variable in the variable list (`event_vals` inverted);
`true` for variables outside the list, a case no embedded lookup reaches. -/
def eventOfKey (vs : List String) (key : List Bool) : String → Bool :=
  fun v => (((vs.zip key).find? (fun p => p.1 = v)).map Prod.snd).getD true

/-- `{**event, var: val}`. -/
def extendEv (e : String → Bool) (v : String) (b : Bool) : String → Bool :=
  fun w => if w = v then b else e w

/-- `Factor.p(e)`: the clamped table entry at the key tuple of `e`. -/
def factorP (f : FactorM) (e : String → Bool) : ℚ :=
  clampProb (f.table (f.vars.map e))

/-- `dict.fromkeys` order-preserving deduplication (first occurrence wins). -/
def dedupKeepFirst (l : List String) : List String :=
  l.foldl (fun acc v => if v ∈ acc then acc else acc ++ [v]) []

/-- `Factor.pointwise_product(other, bn)`: when either factor has no
variables the source returns the other operand unchanged (discarding the
empty factor's value); otherwise the table over the deduplicated concatenation
of the variable lists holds the clamped products of the operand values. -/
def pointwiseBin (f g : FactorM) : FactorM :=
  if f.vars = [] then g
  else if g.vars = [] then f
  else
    let vs := dedupKeepFirst (f.vars ++ g.vars)
    mkFactor vs (fun key =>
      clampProb (factorP f (eventOfKey vs key) * factorP g (eventOfKey vs key)))

/-- `Factor.sum_out(var, bn)`: unchanged if `var` is absent; otherwise the
table over the remaining variables holds the clamped sums of the two
restrictions of the factor. -/
def sumOutVar (f : FactorM) (v : String) : FactorM :=
  if v ∈ f.vars then
    let vs := f.vars.filter (fun x => x ≠ v)
    mkFactor vs (fun key =>
      clampProb (factorP f (extendEv (eventOfKey vs key) v true)
        + factorP f (extendEv (eventOfKey vs key) v false)))
  else f

/-- `Factor.normalize()`: asserts a single variable, raises `ValueError` on a
non-positive total, and otherwise returns the clamped normalized pair
`(P(True), P(False))`. -/
def normalizeF (f : FactorM) : Except PyErr (ℚ × ℚ) :=
  if f.vars.length = 1 then
    if f.table [true] + f.table [false] ≤ 0 then .error .valueError
    else .ok (clampProb (f.table [true] / (f.table [true] + f.table [false])),
              clampProb (f.table [false] / (f.table [true] + f.table [false])))
  else .error .assertionError

/-- `make_factor(var, evidence, bn)`: the factor over `[var] + parents` minus
the evidence variables, whose entries are `node.p` at the event merged with
the evidence (evidence wins). -/
def makeFactor (v : String) (ev : String → Option Bool) (bn : BayesNetM) : FactorM :=
  let nd := bn.node v
  let vs := ([v] ++ nd.parents).filter (fun x => (ev x).isNone)
  mkFactor vs (fun key =>
    let full := fun w => ((ev w).getD (eventOfKey vs key w))
    nodeP nd (full v) full)

/-- `pointwise_product(factors, bn)`: the left fold of the binary product;
the empty list gives `Factor([], {(): 1.0})`. -/
def productList (fs : List FactorM) : FactorM :=
  match fs with
  | [] => mkFactor [] (fun _ => 1)
  | f :: rest => rest.foldl pointwiseBin f

/-- The factors constructed by a `reduce` over `pointwise_product`: every
intermediate binary product. -/
def partialProds (fs : List FactorM) : List FactorM :=
  match fs with
  | [] => []
  | f :: rest => (rest.scanl pointwiseBin f).drop 1

/-- `sum_out(var, factors, bn)`: multiply the factors mentioning `var`, sum
`var` out of the product, and keep the others. -/
def sumOutList (v : String) (fs : List FactorM) : List FactorM :=
  let varFs := fs.filter (fun f => v ∈ f.vars)
  let others := fs.filter (fun f => v ∉ f.vars)
  if varFs.isEmpty then fs
  else others ++ [sumOutVar (productList varFs) v]

/-- One iteration of the `elimination_ask` loop, instrumented: the first
component is the `factors` list of the source; the second logs every factor
constructed (each `make_factor` result, each binary `pointwise_product`, each
`sum_out` result). -/
def elimStep (X : String) (ev : String → Option Bool) (bn : BayesNetM)
    (acc : List FactorM × List FactorM) (v : String) : List FactorM × List FactorM :=
  if v ≠ X ∧ (ev v).isNone then
    if ((acc.1 ++ [makeFactor v ev bn]).filter (fun g => v ∈ g.vars)).isEmpty then
      (acc.1 ++ [makeFactor v ev bn], acc.2 ++ [makeFactor v ev bn])
    else
      ((acc.1 ++ [makeFactor v ev bn]).filter (fun g => v ∉ g.vars)
          ++ [sumOutVar (productList
                ((acc.1 ++ [makeFactor v ev bn]).filter (fun g => v ∈ g.vars))) v],
       acc.2 ++ [makeFactor v ev bn]
          ++ partialProds ((acc.1 ++ [makeFactor v ev bn]).filter (fun g => v ∈ g.vars))
          ++ [sumOutVar (productList
                ((acc.1 ++ [makeFactor v ev bn]).filter (fun g => v ∈ g.vars))) v])
  else (acc.1 ++ [makeFactor v ev bn], acc.2 ++ [makeFactor v ev bn])

/-- The `elimination_ask` loop over the variables in reverse order. -/
def elimCore (X : String) (ev : String → Option Bool) (bn : BayesNetM) :
    List FactorM × List FactorM :=
  bn.vars.reverse.foldl (elimStep X ev bn) ([], [])

/-- `elimination_ask(X, evidence, bn)`: assert the query variable is not
evidence, run the elimination loop, multiply the remaining factors and
normalize.  Returns the pair `(P(True), P(False))`. -/
def eliminationAsk (X : String) (ev : String → Option Bool) (bn : BayesNetM) :
    Except PyErr (ℚ × ℚ) :=
  if (ev X).isSome then .error .assertionError
  else normalizeF (productList (elimCore X ev bn).1)

/-- Every factor constructed during `elimination_ask`: the loop's log plus the
binary products of the final `pointwise_product` (the lone-factor case
constructs nothing new, so `partialProds` of a singleton is empty). -/
def elimFactorLog (X : String) (ev : String → Option Bool) (bn : BayesNetM) :
    List FactorM :=
  (elimCore X ev bn).2 ++ partialProds (elimCore X ev bn).1
    ++ [productList (elimCore X ev bn).1]

/-- Well-formedness of a `BayesNet` per the data model: every node's CPT
entries are probabilities in `[0, 1]`, and no node lists itself as parent. -/
def validNet (bn : BayesNetM) : Prop :=
  ∀ v ∈ bn.vars,
    (∀ key, 0 ≤ (bn.node v).cpt key ∧ (bn.node v).cpt key ≤ 1)
      ∧ v ∉ (bn.node v).parents

/-!  ### Concrete scenario data -/

/-- Scenario A percepts: `{breeze: False, stench: False, glitter: False}`. -/
def perceptsA : List (String × PerceptVal) :=
  [("breeze", .flag false), ("stench", .flag false), ("glitter", .flag false)]

/-- The scenario-A knowledge base: a fresh 4×4 KB told the all-false percepts
of cell `(0, 0)`. -/
def kbA : KnowledgeBase :=
  (tellPercept (kbNew 4 2) 0 0 perceptsA).toOption.getD (kbNew 4 2)

/-- Scenario B percepts: `{breeze: True, stench: False, glitter: False}`. -/
def perceptsB : List (String × PerceptVal) :=
  [("breeze", .flag true), ("stench", .flag false), ("glitter", .flag false)]

/-- The scenario-B knowledge base: a fresh 8×8 KB told a breeze at `(1, 1)`. -/
def kbB : KnowledgeBase :=
  (tellPercept (kbNew 8 2) 1 1 perceptsB).toOption.getD (kbNew 8 2)

/-- The scenario-B query: every neighbour of `(1, 1)` is pit-free. -/
def queryB : List Clause :=
  [{litNeg (pit 0 1)}, {litNeg (pit 2 1)}, {litNeg (pit 1 0)}, {litNeg (pit 1 2)}]

/-- A knowledge base entailing `P_1_1` without storing it as a unit:
`{P_1_1 ∨ P_2_2, P_1_1 ∨ ¬P_2_2}` on top of the initial facts. -/
def kb1 : KnowledgeBase :=
  tellClauses (kbNew 8 2) [{pit 1 1, pit 2 2}, {pit 1 1, litNeg (pit 2 2)}]

/-- A clause store whose unit propagation derives the empty clause:
`{{P_1_1}, {P_2_2}, {¬P_1_1 ∨ ¬P_2_2}}`. -/
def S0 : Finset Clause := {{pit 1 1}, {pit 2 2}, {litNeg (pit 1 1), litNeg (pit 2 2)}}

/-- A clause store on which telling `P_1_1 ∨ P_2_2` twice differs from telling
it once: the first tell consumes the stored negated units and propagation
turns the implications into fresh ones, so the second tell consumes those. -/
def kbC7 : KnowledgeBase :=
  ⟨8, 2, {{litNeg (pit 1 1)}, {litNeg (pit 2 2)}, {wumpus 3 3}, {breeze 0 3},
    {litNeg (wumpus 3 3), litNeg (pit 1 1)}, {litNeg (breeze 0 3), litNeg (pit 2 2)}}⟩

/-- The clause told twice in the `tell`-idempotence counterexample. -/
def c7clause : Clause := {pit 1 1, pit 2 2}

/-- A one-node Bayesian network: `P(Pit) = 1/5` with no parents. -/
def netC : BayesNetM := ⟨["Pit"], fun _ => ⟨[], fun _ => 1/5⟩⟩

/-- The empty evidence dictionary. -/
def evN : String → Option Bool := fun _ => none

/-!  ### Properties of `refresh` (unit propagation) -/

theorem mem_unitLits {S : Finset Clause} {l : Literal} :
    l ∈ unitLits S ↔ ({l} : Clause) ∈ S := by
  constructor
  · intro h
    rcases Finset.mem_biUnion.mp h with ⟨c, hc, hl⟩
    by_cases h1 : c.card = 1
    · rw [if_pos h1] at hl
      rcases Finset.card_eq_one.mp h1 with ⟨a, rfl⟩
      rcases Finset.mem_singleton.mp hl with rfl
      exact hc
    · rw [if_neg h1] at hl
      exact absurd hl (Finset.not_mem_empty l)
  · intro h
    exact Finset.mem_biUnion.mpr ⟨{l}, h, by simp⟩

theorem keepRes_unit {l : Literal} {model : Finset Literal} (hl : l ∈ model) :
    keepRes {l} model = false := by
  unfold keepRes simplifyCl
  rw [if_pos ⟨l, Finset.mem_singleton_self l, hl⟩]

theorem resOf_subset {c : Clause} {model : Finset Literal}
    (h : keepRes c model = true) : resOf c model ⊆ c := by
  unfold keepRes at h
  unfold resOf
  rcases hs : simplifyCl c model with _ | r
  · rw [hs] at h; simp at h
  · rw [hs] at h
    simp only [Option.getD_some]
    have h2 := hs
    unfold simplifyCl at h2
    split at h2
    · exact absurd h2 (by simp)
    · rw [← Option.some.inj h2]
      exact Finset.filter_subset _ c

theorem resOf_nonempty {c : Clause} {model : Finset Literal}
    (h : keepRes c model = true) : resOf c model ≠ ∅ := by
  unfold keepRes at h
  unfold resOf
  rcases hs : simplifyCl c model with _ | r
  · rw [hs] at h; simp at h
  · rw [hs] at h
    simp only [Option.getD_some]
    intro hr
    rw [hr] at h
    simp at h

theorem mem_propagate {S : Finset Clause} {d : Clause} :
    d ∈ propagate S ↔
      (∃ c ∈ S, keepRes c (unitLits S) = true ∧ resOf c (unitLits S) = d)
        ∨ (∃ l ∈ unitLits S, ({l} : Clause) = d) := by
  unfold propagate
  simp only [Finset.mem_union, Finset.mem_image, Finset.mem_filter]
  constructor
  · rintro (⟨c, ⟨hc, hk⟩, hr⟩ | ⟨l, hl, he⟩)
    · exact Or.inl ⟨c, hc, hk, hr⟩
    · exact Or.inr ⟨l, hl, he⟩
  · rintro (⟨c, hc, hk, hr⟩ | ⟨l, hl, he⟩)
    · exact Or.inl ⟨c, ⟨hc, hk⟩, hr⟩
    · exact Or.inr ⟨l, hl, he⟩

theorem sum_image_le_sum {α β : Type} [DecidableEq α] [DecidableEq β]
    (s : Finset α) (f : α → β) (g : β → ℕ) :
    (s.image f).sum g ≤ s.sum (fun a => g (f a)) := by
  induction s using Finset.induction_on with
  | empty => simp
  | insert ha ih =>
    rename_i a s
    rw [Finset.image_insert, Finset.sum_insert ha]
    by_cases h : f a ∈ s.image f
    · rw [Finset.insert_eq_self.mpr h]
      exact le_trans ih (Nat.le_add_left _ _)
    · rw [Finset.sum_insert h]
      exact Nat.add_le_add_left ih _

theorem sum_union_le_sum {α : Type} [DecidableEq α] (s t : Finset α) (g : α → ℕ) :
    (s ∪ t).sum g ≤ s.sum g + t.sum g := by
  rw [← Finset.sum_union_inter]
  exact Nat.le_add_right _ _

/-- The unit-clause re-adds of a `propagate` pass are exactly the unit clauses
already stored. -/
theorem units_image_eq {S : Finset Clause} :
    (unitLits S).image (fun l => ({l} : Clause)) = S.filter (fun c => c.card = 1) := by
  ext c
  simp only [Finset.mem_image, Finset.mem_filter]
  constructor
  · rintro ⟨l, hl, rfl⟩
    exact ⟨mem_unitLits.mp hl, Finset.card_singleton l⟩
  · rintro ⟨hc, h1⟩
    rcases Finset.card_eq_one.mp h1 with ⟨a, rfl⟩
    exact ⟨a, mem_unitLits.mpr hc, rfl⟩

/-- The clauses whose simplification a `propagate` pass keeps. -/
def contribs (S : Finset Clause) : Finset Clause :=
  S.filter (fun c => keepRes c (unitLits S))

/-- The unit clauses of a clause set. -/
def unitCls (S : Finset Clause) : Finset Clause := S.filter (fun c => c.card = 1)

/-- Either a `propagate` pass keeps every clause (each one a unit or its own
simplification), or it strictly decreases the `weight` measure. -/
theorem propagate_cases (S : Finset Clause) :
    (contribs S ∪ unitCls S = S ∧ ∀ c ∈ contribs S, resOf c (unitLits S) = c)
      ∨ weight (propagate S) < weight S := by
  classical
  set model := unitLits S with hmodel
  have hC : contribs S = S.filter (fun c => keepRes c model) := rfl
  have hU : unitCls S = S.filter (fun c : Clause => c.card = 1) := rfl
  set C := S.filter (fun c => keepRes c model) with hCdef
  set U := S.filter (fun c : Clause => c.card = 1) with hUdef
  have hPdef : propagate S = C.image (fun c => resOf c model) ∪ U := by
    unfold propagate
    rw [units_image_eq]
  have hCU_sub : C ∪ U ⊆ S := by
    intro c hc
    rcases Finset.mem_union.mp hc with h | h
    · exact (Finset.mem_filter.mp h).1
    · exact (Finset.mem_filter.mp h).1
  have hdisj : Disjoint C U := by
    rw [Finset.disjoint_left]
    intro c hc hu
    have hk := (Finset.mem_filter.mp hc).2
    have h1 := (Finset.mem_filter.mp hu).2
    rcases Finset.card_eq_one.mp (by exact_mod_cast h1) with ⟨a, rfl⟩
    have ha : a ∈ model := mem_unitLits.mpr (Finset.mem_filter.mp hu).1
    rw [keepRes_unit ha] at hk
    exact absurd hk (by simp)
  -- the weight of a pass, bounded by the weight of the contributors and units
  have hw1 : weight (propagate S) ≤
      C.sum (fun c => (resOf c model).card + 1) + weight U := by
    rw [hPdef]
    unfold weight
    refine le_trans (sum_union_le_sum _ _ _) (Nat.add_le_add_right ?_ _)
    exact sum_image_le_sum C (fun c => resOf c model) (fun c => c.card + 1)
  have hw2 : C.sum (fun c => (resOf c model).card + 1) ≤ C.sum (fun c => c.card + 1) := by
    refine Finset.sum_le_sum ?_
    intro c hc
    have hk := (Finset.mem_filter.mp hc).2
    exact Nat.add_le_add_right (Finset.card_le_card (resOf_subset hk)) 1
  have hw3 : C.sum (fun c => c.card + 1) + weight U = weight (C ∪ U) := by
    unfold weight
    rw [Finset.sum_union hdisj]
  have hw4 : weight (C ∪ U) ≤ weight S := by
    unfold weight
    exact Finset.sum_le_sum_of_subset hCU_sub
  by_cases hall : C ∪ U = S
  · by_cases hres : ∀ c ∈ C, resOf c model = c
    · left
      rw [hC, hU]
      exact ⟨hall, fun c hc => hres c (hC ▸ hc)⟩
    · right
      push_neg at hres
      rcases hres with ⟨c0, hc0, hne⟩
      have hk0 := (Finset.mem_filter.mp hc0).2
      have hlt : (resOf c0 model).card + 1 < c0.card + 1 := by
        have hss : resOf c0 model ⊂ c0 := ⟨resOf_subset hk0, fun h =>
          hne (Finset.Subset.antisymm (resOf_subset hk0) h)⟩
        exact Nat.add_lt_add_right (Finset.card_lt_card hss) 1
      have hstrict : C.sum (fun c => (resOf c model).card + 1)
          < C.sum (fun c => c.card + 1) := by
        refine Finset.sum_lt_sum ?_ ⟨c0, hc0, hlt⟩
        intro c hc
        exact Nat.add_le_add_right (Finset.card_le_card
          (resOf_subset (Finset.mem_filter.mp hc).2)) 1
      calc weight (propagate S)
          ≤ C.sum (fun c => (resOf c model).card + 1) + weight U := hw1
        _ < C.sum (fun c => c.card + 1) + weight U := Nat.add_lt_add_right hstrict _
        _ = weight (C ∪ U) := hw3
        _ ≤ weight S := hw4
  · right
    rcases Finset.exists_of_ssubset (Finset.ssubset_iff_subset_ne.mpr ⟨hCU_sub, hall⟩)
      with ⟨c0, hc0S, hc0⟩
    have hstrict : weight (C ∪ U) < weight S := by
      unfold weight
      refine Finset.sum_lt_sum_of_subset hCU_sub hc0S hc0 (by omega) ?_
      intro j _ _
      exact Nat.zero_le _
    calc weight (propagate S)
        ≤ C.sum (fun c => (resOf c model).card + 1) + weight U := hw1
      _ ≤ C.sum (fun c => c.card + 1) + weight U := Nat.add_le_add_right hw2 _
      _ = weight (C ∪ U) := hw3
      _ < weight S := hstrict

/-- The first disjunct of `propagate_cases` makes the pass a fixpoint. -/
theorem propagate_eq_of_kept {S : Finset Clause}
    (hall : contribs S ∪ unitCls S = S)
    (hres : ∀ c ∈ contribs S, resOf c (unitLits S) = c) : propagate S = S := by
  have hPdef : propagate S =
      (contribs S).image (fun c => resOf c (unitLits S)) ∪ unitCls S := by
    unfold propagate contribs unitCls
    rw [units_image_eq]
  rw [hPdef, Finset.image_congr (fun c hc => hres c (by simpa using hc)),
    Finset.image_id', hall]

theorem propagate_weight_lt {S : Finset Clause} (hne : propagate S ≠ S) :
    weight (propagate S) < weight S := by
  rcases propagate_cases S with ⟨hall, hres⟩ | hlt
  · exact absurd (propagate_eq_of_kept hall hres) hne
  · exact hlt

/-- At a `propagate` fixpoint every clause is a unit clause or is left
untouched by simplification against the model. -/
theorem propagate_fix_char {S : Finset Clause} (hfix : propagate S = S) :
    ∀ c ∈ S, c.card = 1
      ∨ (keepRes c (unitLits S) = true ∧ resOf c (unitLits S) = c) := by
  rcases propagate_cases S with ⟨hall, hres⟩ | hlt
  · intro c hc
    rw [← hall] at hc
    rcases Finset.mem_union.mp hc with h | h
    · exact Or.inr ⟨(Finset.mem_filter.mp h).2, hres c h⟩
    · exact Or.inl (Finset.mem_filter.mp h).2
  · rw [hfix] at hlt
    exact absurd hlt (lt_irrefl _)

theorem litNeg_litNeg (l : Literal) : litNeg (litNeg l) = l := by
  cases l; simp [litNeg]

theorem units_mem_propagate {S : Finset Clause} {l : Literal}
    (hl : l ∈ unitLits S) : ({l} : Clause) ∈ propagate S :=
  mem_propagate.mpr (Or.inr ⟨l, hl, rfl⟩)

theorem unitLits_subset_propagate {S : Finset Clause} :
    unitLits S ⊆ unitLits (propagate S) := fun _ hl =>
  mem_unitLits.mpr (units_mem_propagate hl)

theorem mem_resOf {c d : Clause} {model : Finset Literal} {x : Literal}
    (hk : keepRes c model = true) (hr : resOf c model = d) (hx : x ∈ d) :
    x ∈ c ∧ litNeg x ∉ model := by
  unfold keepRes at hk
  rcases hs : simplifyCl c model with _ | r
  · rw [hs] at hk; simp at hk
  · have h2 := hs
    unfold simplifyCl at h2
    split at h2
    · exact absurd h2 (by simp)
    · have hd : d = c.filter (fun l => litNeg l ∉ model) := by
        rw [← hr]
        unfold resOf
        rw [hs, Option.getD_some, ← Option.some.inj h2]
      rw [hd] at hx
      exact ⟨(Finset.mem_filter.mp hx).1, (Finset.mem_filter.mp hx).2⟩

theorem propagate_no_empty {S : Finset Clause} : (∅ : Clause) ∉ propagate S := by
  intro h
  rcases mem_propagate.mp h with ⟨c, _, hk, hr⟩ | ⟨l, _, he⟩
  · exact resOf_nonempty hk hr
  · exact Finset.singleton_ne_empty l he

theorem refreshAux_congr : ∀ (k : Nat) (S : Finset Clause) (n m : Nat),
    weight S < k → weight S < n → weight S < m →
    refreshAux n S = refreshAux m S := by
  intro k
  induction k using Nat.strong_induction_on with
  | _ k ih =>
    intro S n m hk hn hm
    rcases n with _ | n
    · omega
    rcases m with _ | m
    · omega
    show refreshAux (n + 1) S = refreshAux (m + 1) S
    unfold refreshAux
    by_cases h1 : unitLits S = ∅
    · rw [if_pos h1, if_pos h1]
    · rw [if_neg h1, if_neg h1]
      by_cases h2 : propagate S = S
      · rw [if_pos h2, if_pos h2]
      · rw [if_neg h2, if_neg h2]
        have hlt := propagate_weight_lt h2
        exact ih (weight S) hk (propagate S) n m hlt (by omega) (by omega)

/-- The defining recursion of `refresh`: return on an empty model or an
unchanged pass, else recurse on the pass. -/
theorem refresh_eq (S : Finset Clause) : refresh S =
    if unitLits S = ∅ then S
    else if propagate S = S then S
    else refresh (propagate S) := by
  unfold refresh
  show refreshAux (weight S + 1) S = _
  rw [refreshAux]
  by_cases h1 : unitLits S = ∅
  · rw [if_pos h1, if_pos h1]
  · rw [if_neg h1, if_neg h1]
    by_cases h2 : propagate S = S
    · rw [if_pos h2, if_pos h2]
    · rw [if_neg h2, if_neg h2]
      have hlt := propagate_weight_lt h2
      exact refreshAux_congr (weight S + 1) (propagate S) _ _ (by omega) (by omega)
        (by omega)

theorem refresh_idem : ∀ (k : Nat) (S : Finset Clause), weight S < k →
    refresh (refresh S) = refresh S := by
  intro k
  induction k using Nat.strong_induction_on with
  | _ k ih =>
    intro S hk
    rw [refresh_eq S]
    by_cases h1 : unitLits S = ∅
    · rw [if_pos h1, refresh_eq S, if_pos h1]
    · rw [if_neg h1]
      by_cases h2 : propagate S = S
      · rw [if_pos h2, refresh_eq S, if_neg h1, if_pos h2]
      · rw [if_neg h2]
        exact ih (weight S) hk (propagate S) (propagate_weight_lt h2)

theorem refresh_unit_mem : ∀ (k : Nat) (S : Finset Clause), weight S < k →
    ∀ l : Literal, ({l} : Clause) ∈ S → ({l} : Clause) ∈ refresh S := by
  intro k
  induction k using Nat.strong_induction_on with
  | _ k ih =>
    intro S hk l hl
    rw [refresh_eq S]
    by_cases h1 : unitLits S = ∅
    · rw [if_pos h1]; exact hl
    · rw [if_neg h1]
      by_cases h2 : propagate S = S
      · rw [if_pos h2]; exact hl
      · rw [if_neg h2]
        exact ih (weight S) hk (propagate S) (propagate_weight_lt h2) l
          (units_mem_propagate (mem_unitLits.mpr hl))

theorem refresh_no_neg : ∀ (k : Nat) (S : Finset Clause), weight S < k →
    ∀ l : Literal, ({l} : Clause) ∈ S → ({litNeg l} : Clause) ∉ S →
    ({litNeg l} : Clause) ∉ refresh S := by
  intro k
  induction k using Nat.strong_induction_on with
  | _ k ih =>
    intro S hk l hl hn
    rw [refresh_eq S]
    by_cases h1 : unitLits S = ∅
    · rw [if_pos h1]; exact hn
    · rw [if_neg h1]
      by_cases h2 : propagate S = S
      · rw [if_pos h2]; exact hn
      · rw [if_neg h2]
        have hnp : ({litNeg l} : Clause) ∉ propagate S := by
          intro hmem
          rcases mem_propagate.mp hmem with ⟨c, _, hk2, hr⟩ | ⟨m, hm, he⟩
          · have := (mem_resOf hk2 hr (Finset.mem_singleton_self (litNeg l))).2
            rw [litNeg_litNeg] at this
            exact this (mem_unitLits.mpr hl)
          · rcases Finset.singleton_inj.mp he with rfl
            exact hn (mem_unitLits.mp hm)
        exact ih (weight S) hk (propagate S) (propagate_weight_lt h2) l
          (units_mem_propagate (mem_unitLits.mpr hl)) hnp

theorem refresh_no_empty : ∀ (k : Nat) (S : Finset Clause), weight S < k →
    unitLits S ≠ ∅ → (∅ : Clause) ∉ refresh S := by
  intro k
  induction k using Nat.strong_induction_on with
  | _ k ih =>
    intro S hk hu
    rw [refresh_eq S]
    rw [if_neg hu]
    by_cases h2 : propagate S = S
    · rw [if_pos h2]
      intro he
      rw [← h2] at he
      exact propagate_no_empty he
    · rw [if_neg h2]
      have hu2 : unitLits (propagate S) ≠ ∅ := by
        intro h
        rcases Finset.nonempty_iff_ne_empty.mpr hu with ⟨l, hl⟩
        have := unitLits_subset_propagate hl
        rw [h] at this
        exact Finset.not_mem_empty l this
      exact ih (weight S) hk (propagate S) (propagate_weight_lt h2) hu2

/-!  ### Properties of `tell` -/

theorem litNeg_ne (l : Literal) : litNeg l ≠ l := by
  intro h
  have hs := congrArg Literal.sign h
  simp only [litNeg] at hs
  cases hsign : l.sign <;> rw [hsign] at hs <;> exact absurd hs (by simp)

/-- Telling a single clause steps the store once and refreshes. -/
theorem tellClauses_single (kb : KnowledgeBase) (c : Clause) :
    tellClauses kb [c] = { kb with clauses := refresh (tellStep kb.clauses c) } := rfl

theorem tellStep_unit (S : Finset Clause) (l : Literal) :
    tellStep S {l} = S.erase {litNeg l} ∪ {{l}} := by
  unfold tellStep clauseInvert
  rw [if_pos (Finset.card_singleton l), Finset.image_singleton]

/-- Telling the same unit clause twice is telling it once: after the first
tell the unit is stored, its negation is not, and the store is a `refresh`
fixpoint, so the second tell changes nothing. -/
theorem tellClauses_unit_idem (kb : KnowledgeBase) (l : Literal) :
    tellClauses (tellClauses kb [{l}]) [{l}] = tellClauses kb [{l}] := by
  rw [tellClauses_single kb, tellClauses_single]
  have h1 : ({l} : Clause) ∈ tellStep kb.clauses {l} := by
    rw [tellStep_unit]
    exact Finset.mem_union_right _ (Finset.mem_singleton_self _)
  have h2 : ({litNeg l} : Clause) ∉ tellStep kb.clauses {l} := by
    rw [tellStep_unit]
    intro h
    rcases Finset.mem_union.mp h with h | h
    · exact (Finset.mem_erase.mp h).1 rfl
    · exact litNeg_ne l (Finset.singleton_inj.mp (Finset.mem_singleton.mp h))
  have h3 := refresh_unit_mem (weight (tellStep kb.clauses {l}) + 1) _
    (Nat.lt_succ_self _) l h1
  have h4 := refresh_no_neg (weight (tellStep kb.clauses {l}) + 1) _
    (Nat.lt_succ_self _) l h1 h2
  have hstep : tellStep (refresh (tellStep kb.clauses {l})) {l}
      = refresh (tellStep kb.clauses {l}) := by
    rw [tellStep_unit, Finset.erase_eq_of_not_mem h4,
      Finset.union_eq_left.mpr (Finset.singleton_subset_iff.mpr h3)]
  simp only [hstep]
  congr 1
  exact refresh_idem (weight (tellStep kb.clauses {l}) + 1) _ (Nat.lt_succ_self _)

theorem weight_refresh_le : ∀ (k : Nat) (S : Finset Clause), weight S < k →
    weight (refresh S) ≤ weight S := by
  intro k
  induction k using Nat.strong_induction_on with
  | _ k ih =>
    intro S hk
    rw [refresh_eq S]
    by_cases h1 : unitLits S = ∅
    · rw [if_pos h1]
    · rw [if_neg h1]
      by_cases h2 : propagate S = S
      · rw [if_pos h2]
      · rw [if_neg h2]
        have hlt := propagate_weight_lt h2
        exact le_trans (ih (weight S) hk (propagate S) hlt) (le_of_lt hlt)

/-- A `refresh` fixpoint is an empty-model early return or a `propagate`
fixpoint. -/
theorem fix_disj {S : Finset Clause} (hfix : refresh S = S) :
    unitLits S = ∅ ∨ propagate S = S := by
  by_cases h1 : unitLits S = ∅
  · exact Or.inl h1
  · by_cases h2 : propagate S = S
    · exact Or.inr h2
    · rw [refresh_eq S, if_neg h1, if_neg h2] at hfix
      have hlt := propagate_weight_lt h2
      have hle := weight_refresh_le (weight (propagate S) + 1) (propagate S)
        (Nat.lt_succ_self _)
      rw [hfix] at hle
      omega

/-- Converse of `propagate_fix_char`: a set whose every clause is a unit or
its own simplification is a `propagate` fixpoint. -/
theorem propagate_eq_self_of_char {T : Finset Clause}
    (h : ∀ c ∈ T, c.card = 1
      ∨ (keepRes c (unitLits T) = true ∧ resOf c (unitLits T) = c)) :
    propagate T = T := by
  refine propagate_eq_of_kept ?_ ?_
  · apply Finset.Subset.antisymm
    · intro c hc
      rcases Finset.mem_union.mp hc with h1 | h1
      · exact (Finset.mem_filter.mp h1).1
      · exact (Finset.mem_filter.mp h1).1
    · intro c hc
      rcases h c hc with h1 | ⟨h1, _⟩
      · exact Finset.mem_union_right _ (Finset.mem_filter.mpr ⟨hc, h1⟩)
      · exact Finset.mem_union_left _ (Finset.mem_filter.mpr ⟨hc, h1⟩)
  · intro c hc
    have hcT := (Finset.mem_filter.mp hc).1
    have hk := (Finset.mem_filter.mp hc).2
    rcases h c hcT with h1 | ⟨_, h2⟩
    · rcases Finset.card_eq_one.mp h1 with ⟨a, rfl⟩
      have ha : a ∈ unitLits T := mem_unitLits.mpr hcT
      rw [keepRes_unit ha] at hk
      exact absurd hk (by simp)
    · exact h2

theorem unitLits_union_nonunit {S : Finset Clause} {t : Clause} (ht : t.card ≠ 1) :
    unitLits (S ∪ {t}) = unitLits S := by
  ext m
  rw [mem_unitLits, mem_unitLits, Finset.mem_union, Finset.mem_singleton]
  constructor
  · rintro (h | h)
    · exact h
    · rw [← h] at ht
      exact absurd (Finset.card_singleton m) ht
  · exact Or.inl

theorem simplifyCl_mono_self {c : Clause} {model model2 : Finset Literal}
    (hsome : simplifyCl c model = some c) (hsub : model2 ⊆ model) :
    simplifyCl c model2 = some c := by
  unfold simplifyCl at hsome ⊢
  split at hsome
  · exact absurd hsome (by simp)
  · rename_i hno
    have hall : ∀ l ∈ c, litNeg l ∉ model :=
      Finset.filter_eq_self.mp (Option.some.inj hsome)
    rw [if_neg (fun ⟨l, hl, hlm⟩ => hno ⟨l, hl, hsub hlm⟩)]
    exact congrArg some
      (Finset.filter_eq_self.mpr (fun l hl hlm => hall l hl (hsub hlm)))

theorem keepRes_resOf_of_self {c : Clause} {model : Finset Literal} (hne : c ≠ ∅)
    (hsome : simplifyCl c model = some c) :
    keepRes c model = true ∧ resOf c model = c := by
  unfold keepRes resOf
  rw [hsome]
  simp [hne]

theorem simplifyCl_self_of_keep {c : Clause} {model : Finset Literal}
    (hk : keepRes c model = true) (hr : resOf c model = c) :
    simplifyCl c model = some c := by
  unfold keepRes at hk
  unfold resOf at hr
  rcases hs : simplifyCl c model with _ | r
  · rw [hs] at hk; simp at hk
  · rw [hs, Option.getD_some] at hr
    rw [hr]

theorem simplifyCl_none_of_mem {c : Clause} {model : Finset Literal}
    {l : Literal} (hl : l ∈ c) (hm : l ∈ model) : simplifyCl c model = none := by
  unfold simplifyCl
  rw [if_pos ⟨l, hl, hm⟩]

theorem keepRes_false_of_mem {c : Clause} {model : Finset Literal}
    {l : Literal} (hl : l ∈ c) (hm : l ∈ model) : keepRes c model = false := by
  unfold keepRes
  rw [simplifyCl_none_of_mem hl hm]

/-- Adding a clause the pass drops (satisfied, non-unit) leaves `propagate`
unchanged. -/
theorem propagate_union_dead {S : Finset Clause} {t : Clause} (ht : t.card ≠ 1)
    (hd : keepRes t (unitLits S) = false) :
    propagate (S ∪ {t}) = propagate S := by
  unfold propagate
  rw [unitLits_union_nonunit ht, Finset.filter_union]
  have : ({t} : Finset Clause).filter (fun c => keepRes c (unitLits S)) = ∅ := by
    rw [Finset.filter_singleton, hd]
    simp
  rw [this, Finset.union_empty]

theorem taut_card (A : Literal) : (litOrLit A (litNeg A)).card = 2 := by
  unfold litOrLit
  rw [Finset.card_insert_of_not_mem
    (fun h => litNeg_ne A (Finset.mem_singleton.mp h).symm)]
  rfl

theorem mem_taut {A x : Literal} :
    x ∈ litOrLit A (litNeg A) ↔ x = A ∨ x = litNeg A := by
  simp [litOrLit]

theorem clauseInvert_taut (A : Literal) :
    clauseInvert (litOrLit A (litNeg A))
      = Sum.inr {({litNeg A} : Clause), ({A} : Clause)} := by
  unfold clauseInvert
  rw [if_neg (by rw [taut_card]; omega)]
  congr 1
  show (litOrLit A (litNeg A)).image (fun l => ({litNeg l} : Clause)) = _
  unfold litOrLit
  rw [Finset.image_insert, Finset.image_singleton, litNeg_litNeg]

theorem singleton_ne_taut (A x : Literal) :
    ({x} : Clause) ≠ litOrLit A (litNeg A) := by
  intro h
  have := congrArg Finset.card h
  rw [Finset.card_singleton, taut_card] at this
  omega

/-- Asserting `A ∨ ¬A` into a refresh-fixpoint knowledge base preserves the
stored unit clauses of every other symbol. -/
theorem tell_taut_units (kb : KnowledgeBase) (A : Literal)
    (hfix : refresh kb.clauses = kb.clauses) (m : Literal) (hm : m.name ≠ A.name) :
    (({m} : Clause) ∈ (tellClauses kb [litOrLit A (litNeg A)]).clauses
      ↔ ({m} : Clause) ∈ kb.clauses) := by
  classical
  set S := kb.clauses with hSdef
  set t := litOrLit A (litNeg A) with htdef
  set negs : Finset Clause := {({litNeg A} : Clause), ({A} : Clause)} with hnegs
  have hstep : tellStep S t = (if ∀ c ∈ negs, c ∈ S then S \ negs else S) ∪ {t} := by
    unfold tellStep
    rw [htdef, clauseInvert_taut]
  have htcard : t.card = 2 := taut_card A
  have hmt : ({m} : Clause) ≠ t := htdef ▸ singleton_ne_taut A m
  have hmnegs : ({m} : Clause) ∉ negs := by
    rw [hnegs]
    intro h
    rcases Finset.mem_insert.mp h with h | h
    · have h2 : m = litNeg A := Finset.singleton_inj.mp h
      have h3 : m.name = (litNeg A).name := congrArg Literal.name h2
      exact hm h3
    · have h2 : m = A := Finset.singleton_inj.mp (Finset.mem_singleton.mp h)
      exact hm (congrArg Literal.name h2)
  have htne : t ≠ (∅ : Clause) := by
    intro h
    rw [h] at htcard
    simp at htcard
  have hAt : A ∈ t := htdef ▸ mem_taut.mpr (Or.inl rfl)
  have hnAt : litNeg A ∈ t := htdef ▸ mem_taut.mpr (Or.inr rfl)
  -- the tautology simplifies to itself whenever neither of its literals is a
  -- unit of the model
  have htself : ∀ model2 : Finset Literal, A ∉ model2 → litNeg A ∉ model2 →
      simplifyCl t model2 = some t := by
    intro model2 hA hnA
    unfold simplifyCl
    rw [if_neg ?hno]
    case hno =>
      rintro ⟨l, hl, hlm⟩
      rcases mem_taut.mp (htdef ▸ hl) with rfl | rfl
      · exact hA hlm
      · exact hnA hlm
    refine congrArg some (Finset.filter_eq_self.mpr ?_)
    intro l hl hlm
    rcases mem_taut.mp (htdef ▸ hl) with rfl | rfl
    · exact hnA hlm
    · rw [litNeg_litNeg] at hlm
      exact hA hlm
  rw [tellClauses_single]
  show ({m} : Clause) ∈ refresh (tellStep S t) ↔ ({m} : Clause) ∈ S
  by_cases hunits : unitLits S = ∅
  · -- early-return fixpoint: nothing is removed and the pass never runs
    have hnA : ({litNeg A} : Clause) ∉ S := by
      intro h
      have := mem_unitLits.mpr h
      rw [hunits] at this
      exact Finset.not_mem_empty _ this
    have hcond : ¬ ∀ c ∈ negs, c ∈ S := by
      intro h
      exact hnA (h _ (by rw [hnegs]; exact Finset.mem_insert_self _ _))
    rw [hstep, if_neg hcond]
    have hu2 : unitLits (S ∪ {t}) = ∅ := by
      rw [unitLits_union_nonunit (by omega)]
      exact hunits
    rw [refresh_eq, if_pos hu2, Finset.mem_union, Finset.mem_singleton]
    constructor
    · rintro (h | h)
      · exact h
      · exact absurd h hmt
    · exact Or.inl
  · have hprop : propagate S = S := (fix_disj hfix).resolve_left hunits
    by_cases hcond : ∀ c ∈ negs, c ∈ S
    · -- both contradictory units stored: they are removed, the tautology
      -- stays, and the result is again a fixpoint
      rw [hstep, if_pos hcond]
      set S2 := S \ negs ∪ {t} with hS2
      have hmem2 : ∀ x : Literal, ({x} : Clause) ∈ S2 ↔
          ({x} : Clause) ∈ S ∧ x ≠ litNeg A ∧ x ≠ A := by
        intro x
        rw [hS2, Finset.mem_union, Finset.mem_singleton, Finset.mem_sdiff, hnegs]
        constructor
        · rintro (⟨hxS, hxn⟩ | hx)
          · refine ⟨hxS, ?_, ?_⟩
            · intro h; exact hxn (by rw [h]; exact Finset.mem_insert_self _ _)
            · intro h
              exact hxn (by rw [h]; exact Finset.mem_insert_of_mem (Finset.mem_singleton_self _))
          · exact absurd hx (singleton_ne_taut A x)
        · rintro ⟨hxS, hx1, hx2⟩
          refine Or.inl ⟨hxS, ?_⟩
          intro h
          rcases Finset.mem_insert.mp h with h | h
          · exact hx1 (Finset.singleton_inj.mp h)
          · exact hx2 (Finset.singleton_inj.mp (Finset.mem_singleton.mp h))
      have hsub2 : unitLits S2 ⊆ unitLits S := by
        intro x hx
        exact mem_unitLits.mpr ((hmem2 x).mp (mem_unitLits.mp hx)).1
      have hA2 : A ∉ unitLits S2 := by
        intro h
        exact ((hmem2 A).mp (mem_unitLits.mp h)).2.2 rfl
      have hnA2 : litNeg A ∉ unitLits S2 := by
        intro h
        exact ((hmem2 (litNeg A)).mp (mem_unitLits.mp h)).2.1 rfl
      have hchar : ∀ c ∈ S2, c.card = 1
          ∨ (keepRes c (unitLits S2) = true ∧ resOf c (unitLits S2) = c) := by
        intro c hc
        rcases Finset.mem_union.mp hc with hcs | hct
        · have hcS := (Finset.mem_sdiff.mp hcs).1
          rcases propagate_fix_char hprop c hcS with h1 | ⟨hk, hr⟩
          · exact Or.inl h1
          · have hself := simplifyCl_self_of_keep hk hr
            have hcne : c ≠ ∅ := by
              intro h
              exact resOf_nonempty hk (hr.trans h)
            exact Or.inr (keepRes_resOf_of_self hcne (simplifyCl_mono_self hself hsub2))
        · rcases Finset.mem_singleton.mp hct with rfl
          exact Or.inr (keepRes_resOf_of_self htne (htself _ hA2 hnA2))
      have hprop2 : propagate S2 = S2 := propagate_eq_self_of_char hchar
      have hrefresh2 : refresh S2 = S2 := by
        rw [refresh_eq]
        by_cases hu : unitLits S2 = ∅
        · rw [if_pos hu]
        · rw [if_neg hu, if_pos hprop2]
      rw [hrefresh2]
      rw [hmem2 m]
      constructor
      · exact fun h => h.1
      · intro h
        refine ⟨h, ?_, ?_⟩
        · intro hcontra
          have : m.name = (litNeg A).name := congrArg Literal.name hcontra
          exact hm this
        · intro hcontra; exact hm (congrArg Literal.name hcontra)
    · -- at most one contradictory unit stored: nothing removed
      rw [hstep, if_neg hcond]
      have humem : ∀ x : Literal, ({x} : Clause) ∈ S ∪ {t} ↔ ({x} : Clause) ∈ S := by
        intro x
        rw [Finset.mem_union, Finset.mem_singleton]
        constructor
        · rintro (h | h)
          · exact h
          · exact absurd h (singleton_ne_taut A x)
        · exact Or.inl
      have hu2 : unitLits (S ∪ {t}) = unitLits S :=
        unitLits_union_nonunit (by omega)
      by_cases hsat : A ∈ unitLits S ∨ litNeg A ∈ unitLits S
      · -- the tautology is satisfied by the model and the pass drops it
        have hdead : keepRes t (unitLits S) = false := by
          rcases hsat with h | h
          · exact keepRes_false_of_mem hAt h
          · exact keepRes_false_of_mem hnAt h
        have hpu : propagate (S ∪ {t}) = S := by
          rw [propagate_union_dead (by omega) hdead, hprop]
        by_cases htS : t ∈ S
        · have : S ∪ {t} = S :=
            Finset.union_eq_left.mpr (Finset.singleton_subset_iff.mpr htS)
          rw [this, hfix]
        · have hne : propagate (S ∪ {t}) ≠ S ∪ {t} := by
            rw [hpu]
            intro h
            exact htS (h ▸ Finset.mem_union_right _ (Finset.mem_singleton_self t))
          have hu3 : unitLits (S ∪ {t}) ≠ ∅ := by
            rw [hu2]; exact hunits
          rw [refresh_eq, if_neg hu3, if_neg hne, hpu, hfix]
      · -- the tautology survives untouched and the union is again a fixpoint
        push_neg at hsat
        have hchar : ∀ c ∈ S ∪ {t}, c.card = 1
            ∨ (keepRes c (unitLits (S ∪ {t})) = true
                ∧ resOf c (unitLits (S ∪ {t})) = c) := by
          intro c hc
          rw [hu2]
          rcases Finset.mem_union.mp hc with hcS | hct
          · exact propagate_fix_char hprop c hcS
          · rcases Finset.mem_singleton.mp hct with rfl
            exact Or.inr (keepRes_resOf_of_self htne (htself _ hsat.1 hsat.2))
        have hprop2 : propagate (S ∪ {t}) = S ∪ {t} := propagate_eq_self_of_char hchar
        have hrefresh2 : refresh (S ∪ {t}) = S ∪ {t} := by
          rw [refresh_eq]
          by_cases hu : unitLits (S ∪ {t}) = ∅
          · rw [if_pos hu]
          · rw [if_neg hu, if_pos hprop2]
        rw [hrefresh2, humem m]

/-!  ### Properties of the variable-elimination factors -/

/-- All table entries of a factor lie in `[0, 1]`. -/
def boundedF (f : FactorM) : Prop := ∀ key, 0 ≤ f.table key ∧ f.table key ≤ 1

theorem clampProb_id {v : ℚ} (h0 : 0 ≤ v) (h1 : v ≤ 1) : clampProb v = v := by
  unfold clampProb
  rw [if_neg (fun h => absurd h0 (not_le.mpr h.1)),
    if_neg (fun h => absurd h1 (not_le.mpr h.1))]

theorem factorP_bounded {f : FactorM} (hf : boundedF f) (e : String → Bool) :
    0 ≤ factorP f e ∧ factorP f e ≤ 1 := by
  unfold factorP
  rcases hf (f.vars.map e) with ⟨h0, h1⟩
  rw [clampProb_id h0 h1]
  exact ⟨h0, h1⟩

theorem mkFactor_bounded {vs : List String} {t : List Bool → ℚ}
    (h : ∀ key, 0 ≤ t key ∧ t key ≤ 1) : boundedF (mkFactor vs t) := by
  intro key
  show 0 ≤ clampProb (t key) ∧ clampProb (t key) ≤ 1
  rw [clampProb_id (h key).1 (h key).2]
  exact h key

theorem mem_dedupKeepFirst {l : List String} {v : String} :
    v ∈ dedupKeepFirst l ↔ v ∈ l := by
  unfold dedupKeepFirst
  suffices h : ∀ (l : List String) (acc : List String),
      (v ∈ l.foldl (fun acc v => if v ∈ acc then acc else acc ++ [v]) acc
        ↔ v ∈ acc ∨ v ∈ l) by
    rw [h l []]
    simp
  intro l
  induction l with
  | nil => intro acc; simp
  | cons a l ih =>
    intro acc
    simp only [List.foldl_cons]
    by_cases ha : a ∈ acc
    · rw [if_pos ha, ih]
      constructor
      · rintro (h | h)
        · exact Or.inl h
        · exact Or.inr (List.mem_cons_of_mem a h)
      · rintro (h | h)
        · exact Or.inl h
        · rcases List.mem_cons.mp h with h | h
          · exact Or.inl (h ▸ ha)
          · exact Or.inr h
    · rw [if_neg ha, ih]
      constructor
      · rintro (h | h)
        · rcases List.mem_append.mp h with h | h
          · exact Or.inl h
          · exact Or.inr (List.mem_cons.mpr (Or.inl (List.mem_singleton.mp h)))
        · exact Or.inr (List.mem_cons_of_mem a h)
      · rintro (h | h)
        · exact Or.inl (List.mem_append.mpr (Or.inl h))
        · rcases List.mem_cons.mp h with h | h
          · exact Or.inl (List.mem_append.mpr (Or.inr (by simp [h])))
          · exact Or.inr h

theorem eventOfKey_map {vs : List String} {e : String → Bool} {v : String}
    (hv : v ∈ vs) : eventOfKey vs (vs.map e) v = e v := by
  unfold eventOfKey
  induction vs with
  | nil => exact absurd hv (List.not_mem_nil v)
  | cons a as ih =>
    by_cases ha : a = v
    · subst ha
      simp
    · have hv2 : v ∈ as := (List.mem_cons.mp hv).resolve_left (fun h => ha h.symm)
      simp only [List.map_cons, List.zip_cons_cons, List.find?_cons]
      rw [show decide ((a, e a).1 = v) = false from by simp [ha]]
      exact ih hv2

theorem factorP_eventOfKey {f : FactorM} {vs : List String}
    (hsub : ∀ v ∈ f.vars, v ∈ vs) (e : String → Bool) :
    factorP f (eventOfKey vs (vs.map e)) = factorP f e := by
  unfold factorP
  congr 2
  exact List.map_congr_left (fun v hv => eventOfKey_map (hsub v hv))

theorem pointwiseBin_bounded {f g : FactorM} (hf : boundedF f) (hg : boundedF g) :
    boundedF (pointwiseBin f g) := by
  unfold pointwiseBin
  split
  · exact hg
  · split
    · exact hf
    · refine mkFactor_bounded (fun key => ?_)
      have h1 := factorP_bounded hf (eventOfKey (dedupKeepFirst (f.vars ++ g.vars)) key)
      have h2 := factorP_bounded hg (eventOfKey (dedupKeepFirst (f.vars ++ g.vars)) key)
      have h0 : 0 ≤ factorP f (eventOfKey (dedupKeepFirst (f.vars ++ g.vars)) key)
          * factorP g (eventOfKey (dedupKeepFirst (f.vars ++ g.vars)) key) :=
        mul_nonneg h1.1 h2.1
      have hle : factorP f (eventOfKey (dedupKeepFirst (f.vars ++ g.vars)) key)
          * factorP g (eventOfKey (dedupKeepFirst (f.vars ++ g.vars)) key) ≤ 1 :=
        mul_le_one₀ h1.2 h2.1 h2.2
      rw [clampProb_id h0 hle]
      exact ⟨h0, hle⟩

theorem pointwiseBin_vars {f g : FactorM} (hf : f.vars ≠ []) (hg : g.vars ≠ []) :
    (pointwiseBin f g).vars = dedupKeepFirst (f.vars ++ g.vars) := by
  unfold pointwiseBin
  rw [if_neg hf, if_neg hg]
  rfl

theorem pointwiseBin_p_eq {f g : FactorM} (hf : boundedF f) (hg : boundedF g)
    (hfv : f.vars ≠ []) (hgv : g.vars ≠ []) (e : String → Bool) :
    factorP (pointwiseBin f g) e = factorP f e * factorP g e := by
  have hvars := pointwiseBin_vars hfv hgv
  have hsubf : ∀ v ∈ f.vars, v ∈ (pointwiseBin f g).vars := by
    intro v hv
    rw [hvars, mem_dedupKeepFirst]
    exact List.mem_append.mpr (Or.inl hv)
  have hsubg : ∀ v ∈ g.vars, v ∈ (pointwiseBin f g).vars := by
    intro v hv
    rw [hvars, mem_dedupKeepFirst]
    exact List.mem_append.mpr (Or.inr hv)
  have htab : (pointwiseBin f g).table = fun key =>
      clampProb (clampProb (factorP f (eventOfKey (pointwiseBin f g).vars key)
        * factorP g (eventOfKey (pointwiseBin f g).vars key))) := by
    unfold pointwiseBin
    rw [if_neg hfv, if_neg hgv]
    rfl
  have h1 := factorP_bounded hf e
  have h2 := factorP_bounded hg e
  have h0 : 0 ≤ factorP f e * factorP g e := mul_nonneg h1.1 h2.1
  have hle : factorP f e * factorP g e ≤ 1 := mul_le_one₀ h1.2 h2.1 h2.2
  have hround : ∀ h : FactorM, (∀ v ∈ h.vars, v ∈ (pointwiseBin f g).vars) →
      factorP h (eventOfKey (pointwiseBin f g).vars ((pointwiseBin f g).vars.map e))
        = factorP h e := fun h hs => factorP_eventOfKey hs e
  have hL : factorP (pointwiseBin f g) e
      = clampProb (clampProb (clampProb
          (factorP f (eventOfKey (pointwiseBin f g).vars
              ((pointwiseBin f g).vars.map e))
            * factorP g (eventOfKey (pointwiseBin f g).vars
              ((pointwiseBin f g).vars.map e))))) := by
    show clampProb ((pointwiseBin f g).table ((pointwiseBin f g).vars.map e)) = _
    rw [htab]
  rw [hL, hround f hsubf, hround g hsubg, clampProb_id h0 hle, clampProb_id h0 hle,
    clampProb_id h0 hle]

theorem foldl_pb_bounded : ∀ (rest : List FactorM) (acc : FactorM), boundedF acc →
    (∀ f ∈ rest, boundedF f) → boundedF (rest.foldl pointwiseBin acc) := by
  intro rest
  induction rest with
  | nil => intro acc hb _; exact hb
  | cons g rest ih =>
    intro acc hb hrest
    rw [List.foldl_cons]
    exact ih (pointwiseBin acc g) (pointwiseBin_bounded hb (hrest g (List.mem_cons_self g rest)))
      (fun f hf => hrest f (List.mem_cons_of_mem g hf))

theorem productList_bounded {fs : List FactorM} (h : ∀ f ∈ fs, boundedF f) :
    boundedF (productList fs) := by
  cases fs with
  | nil =>
    refine mkFactor_bounded (fun key => ?_)
    norm_num
  | cons f rest =>
    exact foldl_pb_bounded rest f (h f (List.mem_cons_self f rest))
      (fun g hg => h g (List.mem_cons_of_mem f hg))

theorem scanl_pb_bounded : ∀ (rest : List FactorM) (acc : FactorM), boundedF acc →
    (∀ f ∈ rest, boundedF f) →
    ∀ g ∈ List.scanl pointwiseBin acc rest, boundedF g := by
  intro rest
  induction rest with
  | nil =>
    intro acc hb _ g hg
    rw [List.scanl_nil] at hg
    rcases List.mem_singleton.mp hg with rfl
    exact hb
  | cons r rest ih =>
    intro acc hb hrest g hg
    rw [List.scanl_cons] at hg
    rcases List.mem_append.mp hg with hg | hg
    · rcases List.mem_singleton.mp hg with rfl
      exact hb
    · exact ih (pointwiseBin acc r) (pointwiseBin_bounded hb (hrest r (List.mem_cons_self r rest)))
        (fun f hf => hrest f (List.mem_cons_of_mem r hf)) g hg

theorem partialProds_bounded {fs : List FactorM} (h : ∀ f ∈ fs, boundedF f) :
    ∀ g ∈ partialProds fs, boundedF g := by
  cases fs with
  | nil => intro g hg; exact absurd hg (List.not_mem_nil g)
  | cons f rest =>
    intro g hg
    have hg2 : g ∈ List.scanl pointwiseBin f rest := List.mem_of_mem_drop hg
    exact scanl_pb_bounded rest f (h f (List.mem_cons_self f rest))
      (fun x hx => h x (List.mem_cons_of_mem f hx)) g hg2

theorem foldl_pb_le {f0 : FactorM} (hf0 : f0.vars ≠ []) :
    ∀ (rest : List FactorM) (acc : FactorM), boundedF acc →
    (∀ f ∈ rest, boundedF f) →
    (∀ v ∈ f0.vars, v ∈ acc.vars) → (∀ e, factorP acc e ≤ factorP f0 e) →
    (∀ v ∈ f0.vars, v ∈ (rest.foldl pointwiseBin acc).vars)
      ∧ (∀ e, factorP (rest.foldl pointwiseBin acc) e ≤ factorP f0 e)
      ∧ boundedF (rest.foldl pointwiseBin acc) := by
  intro rest
  induction rest with
  | nil => intro acc hb _ hv hle; exact ⟨hv, hle, hb⟩
  | cons g rest ih =>
    intro acc hb hrest hv hle
    have hgb : boundedF g := hrest g (List.mem_cons_self g rest)
    have htail : ∀ f ∈ rest, boundedF f := fun f hf => hrest f (List.mem_cons_of_mem g hf)
    have haccv : acc.vars ≠ [] := by
      rcases List.exists_mem_of_ne_nil f0.vars hf0 with ⟨x, hx⟩
      exact List.ne_nil_of_mem (hv x hx)
    rw [List.foldl_cons]
    by_cases hgv : g.vars = []
    · have hstep : pointwiseBin acc g = acc := by
        unfold pointwiseBin
        rw [if_neg haccv, if_pos hgv]
      rw [hstep]
      exact ih acc hb htail hv hle
    · have hbnd := pointwiseBin_bounded hb hgb
      have hvars := pointwiseBin_vars haccv hgv
      have hv2 : ∀ v ∈ f0.vars, v ∈ (pointwiseBin acc g).vars := by
        intro v h
        rw [hvars, mem_dedupKeepFirst]
        exact List.mem_append.mpr (Or.inl (hv v h))
      have hle2 : ∀ e, factorP (pointwiseBin acc g) e ≤ factorP f0 e := by
        intro e
        rw [pointwiseBin_p_eq hb hgb haccv hgv]
        calc factorP acc e * factorP g e
            ≤ factorP acc e :=
              mul_le_of_le_one_right (factorP_bounded hb e).1 (factorP_bounded hgb e).2
          _ ≤ factorP f0 e := hle e
      exact ih (pointwiseBin acc g) hbnd htail hv2 hle2

theorem foldl_pb_mem {f0 : FactorM} (hf0 : f0.vars ≠ []) :
    ∀ (rest : List FactorM) (acc : FactorM), boundedF acc →
    (∀ f ∈ rest, boundedF f) → f0 ∈ rest →
    (∀ v ∈ f0.vars, v ∈ (rest.foldl pointwiseBin acc).vars)
      ∧ (∀ e, factorP (rest.foldl pointwiseBin acc) e ≤ factorP f0 e)
      ∧ boundedF (rest.foldl pointwiseBin acc) := by
  intro rest
  induction rest with
  | nil => intro acc _ _ h0; exact absurd h0 (List.not_mem_nil f0)
  | cons g rest ih =>
    intro acc hb hrest h0
    have hgb : boundedF g := hrest g (List.mem_cons_self g rest)
    have htail : ∀ f ∈ rest, boundedF f := fun f hf => hrest f (List.mem_cons_of_mem g hf)
    rcases List.mem_cons.mp h0 with rfl | h0
    · rw [List.foldl_cons]
      by_cases haccv : acc.vars = []
      · have hstep : pointwiseBin acc f0 = f0 := by
          unfold pointwiseBin
          rw [if_pos haccv]
        rw [hstep]
        exact foldl_pb_le hf0 rest f0 hgb htail (fun v h => h) (fun e => le_refl _)
      · have hbnd := pointwiseBin_bounded hb hgb
        have hvars := pointwiseBin_vars haccv hf0
        have hv2 : ∀ v ∈ f0.vars, v ∈ (pointwiseBin acc f0).vars := by
          intro v h
          rw [hvars, mem_dedupKeepFirst]
          exact List.mem_append.mpr (Or.inr h)
        have hle2 : ∀ e, factorP (pointwiseBin acc f0) e ≤ factorP f0 e := by
          intro e
          rw [pointwiseBin_p_eq hb hgb haccv hf0]
          exact mul_le_of_le_one_left (factorP_bounded hgb e).1 (factorP_bounded hb e).2
        exact foldl_pb_le hf0 rest (pointwiseBin acc f0) hbnd htail hv2 hle2
    · rw [List.foldl_cons]
      exact ih (pointwiseBin acc g) (pointwiseBin_bounded hb hgb) htail h0

theorem productList_le_factor {fs : List FactorM} {f0 : FactorM}
    (h0 : f0 ∈ fs) (hb : ∀ f ∈ fs, boundedF f) (hf0 : f0.vars ≠ []) :
    ∀ e, factorP (productList fs) e ≤ factorP f0 e := by
  cases fs with
  | nil => exact absurd h0 (List.not_mem_nil f0)
  | cons f rest =>
    have hfb : boundedF f := hb f (List.mem_cons_self f rest)
    have htail : ∀ g ∈ rest, boundedF g := fun g hg => hb g (List.mem_cons_of_mem f hg)
    rcases List.mem_cons.mp h0 with rfl | h0
    · exact (foldl_pb_le hf0 rest f0 hfb htail (fun v h => h) (fun e => le_refl _)).2.1
    · exact (foldl_pb_mem hf0 rest f hfb htail h0).2.1

theorem nodeP_congr (nd : BayesNodeM) (b : Bool) {e1 e2 : String → Bool}
    (h : nd.parents.map e1 = nd.parents.map e2) : nodeP nd b e1 = nodeP nd b e2 := by
  unfold nodeP
  rw [h]

theorem nodeP_bounded {nd : BayesNodeM}
    (hcpt : ∀ key, 0 ≤ nd.cpt key ∧ nd.cpt key ≤ 1) (b : Bool) (e : String → Bool) :
    0 ≤ nodeP nd b e ∧ nodeP nd b e ≤ 1 := by
  have hvals := hcpt (nd.parents.map e)
  have hid : clampProb (nd.cpt (nd.parents.map e)) = nd.cpt (nd.parents.map e) :=
    clampProb_id hvals.1 hvals.2
  cases b
  · show 0 ≤ 1 - clampProb (nd.cpt (nd.parents.map e))
      ∧ 1 - clampProb (nd.cpt (nd.parents.map e)) ≤ 1
    rw [hid]
    constructor <;> linarith [hvals.1, hvals.2]
  · show 0 ≤ clampProb (nd.cpt (nd.parents.map e))
      ∧ clampProb (nd.cpt (nd.parents.map e)) ≤ 1
    rw [hid]
    exact hvals

theorem mem_makeFactor_vars_self {v : String} {ev : String → Option Bool} {bn : BayesNetM}
    (hvev : ev v = none) : v ∈ (makeFactor v ev bn).vars := by
  show v ∈ ([v] ++ (bn.node v).parents).filter (fun x => (ev x).isNone)
  refine List.mem_filter.mpr ⟨List.mem_append.mpr (Or.inl (List.mem_singleton.mpr rfl)), ?_⟩
  simp [hvev]

theorem makeFactor_bounded {v : String} {ev : String → Option Bool} {bn : BayesNetM}
    (hcpt : ∀ key, 0 ≤ (bn.node v).cpt key ∧ (bn.node v).cpt key ≤ 1) :
    boundedF (makeFactor v ev bn) := by
  unfold makeFactor
  refine mkFactor_bounded (fun key => ?_)
  exact nodeP_bounded hcpt _ _

theorem makeFactor_p_eq {v : String} {ev : String → Option Bool} {bn : BayesNetM}
    (hvev : ev v = none)
    (hcpt : ∀ key, 0 ≤ (bn.node v).cpt key ∧ (bn.node v).cpt key ≤ 1)
    (e : String → Bool) :
    factorP (makeFactor v ev bn) e
      = nodeP (bn.node v) (e v) (fun w => (ev w).getD (e w)) := by
  have hvmem : v ∈ (makeFactor v ev bn).vars := mem_makeFactor_vars_self hvev
  have hfullv : (ev v).getD (eventOfKey (makeFactor v ev bn).vars
      ((makeFactor v ev bn).vars.map e) v) = e v := by
    rw [hvev, Option.getD_none, eventOfKey_map hvmem]
  have hpar : (bn.node v).parents.map (fun w => (ev w).getD
        (eventOfKey (makeFactor v ev bn).vars ((makeFactor v ev bn).vars.map e) w))
      = (bn.node v).parents.map (fun w => (ev w).getD (e w)) := by
    refine List.map_congr_left (fun w hw => ?_)
    cases hew : ev w with
    | none =>
      have hwmem : w ∈ (makeFactor v ev bn).vars := by
        show w ∈ ([v] ++ (bn.node v).parents).filter (fun x => (ev x).isNone)
        refine List.mem_filter.mpr ⟨List.mem_append.mpr (Or.inr hw), ?_⟩
        simp [hew]
      rw [Option.getD_none, Option.getD_none, eventOfKey_map hwmem]
    | some b => rw [Option.getD_some, Option.getD_some]
  have htab : factorP (makeFactor v ev bn) e
      = clampProb (clampProb (nodeP (bn.node v)
          ((ev v).getD (eventOfKey (makeFactor v ev bn).vars
            ((makeFactor v ev bn).vars.map e) v))
          (fun w => (ev w).getD (eventOfKey (makeFactor v ev bn).vars
            ((makeFactor v ev bn).vars.map e) w)))) := rfl
  rw [htab, hfullv, nodeP_congr (bn.node v) (e v) hpar]
  have hb := nodeP_bounded hcpt (e v) (fun w => (ev w).getD (e w))
  rw [clampProb_id hb.1 hb.2, clampProb_id hb.1 hb.2]

theorem makeFactor_sum1 {v : String} {ev : String → Option Bool} {bn : BayesNetM}
    (hvev : ev v = none)
    (hcpt : ∀ key, 0 ≤ (bn.node v).cpt key ∧ (bn.node v).cpt key ≤ 1)
    (hnp : v ∉ (bn.node v).parents) (e : String → Bool) :
    factorP (makeFactor v ev bn) (extendEv e v true)
      + factorP (makeFactor v ev bn) (extendEv e v false) = 1 := by
  rw [makeFactor_p_eq hvev hcpt, makeFactor_p_eq hvev hcpt]
  have hbv : ∀ b : Bool, extendEv e v b v = b := by
    intro b
    unfold extendEv
    rw [if_pos rfl]
  have hpar : ∀ b : Bool,
      (bn.node v).parents.map (fun w => (ev w).getD (extendEv e v b w))
        = (bn.node v).parents.map (fun w => (ev w).getD (e w)) := by
    intro b
    refine List.map_congr_left (fun w hw => ?_)
    have hwv : w ≠ v := fun h => hnp (h ▸ hw)
    unfold extendEv
    rw [if_neg hwv]
  rw [hbv true, hbv false, nodeP_congr (bn.node v) true (hpar true),
    nodeP_congr (bn.node v) false (hpar false)]
  show clampProb ((bn.node v).cpt ((bn.node v).parents.map (fun w => (ev w).getD (e w))))
      + (1 - clampProb ((bn.node v).cpt
          ((bn.node v).parents.map (fun w => (ev w).getD (e w))))) = 1
  ring

theorem sumOutVar_bounded_of {P fv : FactorM} {vv : String}
    (hP : boundedF P)
    (hle : ∀ e, factorP P e ≤ factorP fv e)
    (hsum1 : ∀ e, factorP fv (extendEv e vv true) + factorP fv (extendEv e vv false) = 1) :
    boundedF (sumOutVar P vv) := by
  unfold sumOutVar
  split
  · refine mkFactor_bounded (fun key => ?_)
    have h1 := hle (extendEv (eventOfKey (P.vars.filter (fun x => x ≠ vv)) key) vv true)
    have h2 := hle (extendEv (eventOfKey (P.vars.filter (fun x => x ≠ vv)) key) vv false)
    have h3 := (factorP_bounded hP
      (extendEv (eventOfKey (P.vars.filter (fun x => x ≠ vv)) key) vv true)).1
    have h4 := (factorP_bounded hP
      (extendEv (eventOfKey (P.vars.filter (fun x => x ≠ vv)) key) vv false)).1
    have h5 := hsum1 (eventOfKey (P.vars.filter (fun x => x ≠ vv)) key)
    have h0 : 0 ≤ factorP P (extendEv (eventOfKey (P.vars.filter (fun x => x ≠ vv)) key) vv true)
        + factorP P (extendEv (eventOfKey (P.vars.filter (fun x => x ≠ vv)) key) vv false) := by
      linarith
    have hle1 : factorP P (extendEv (eventOfKey (P.vars.filter (fun x => x ≠ vv)) key) vv true)
        + factorP P (extendEv (eventOfKey (P.vars.filter (fun x => x ≠ vv)) key) vv false)
          ≤ 1 := by
      linarith
    rw [clampProb_id h0 hle1]
    exact ⟨h0, hle1⟩
  · exact hP

theorem elimStep_bounded (X : String) (ev : String → Option Bool) {bn : BayesNetM}
    (hvalid : validNet bn) {v : String} (hv : v ∈ bn.vars)
    {acc : List FactorM × List FactorM}
    (h1 : ∀ f ∈ acc.1, boundedF f) (h2 : ∀ f ∈ acc.2, boundedF f) :
    (∀ f ∈ (elimStep X ev bn acc v).1, boundedF f)
      ∧ (∀ f ∈ (elimStep X ev bn acc v).2, boundedF f) := by
  have hcpt := (hvalid v hv).1
  have hnp := (hvalid v hv).2
  have hfb : boundedF (makeFactor v ev bn) := makeFactor_bounded hcpt
  have hfs : ∀ g ∈ acc.1 ++ [makeFactor v ev bn], boundedF g := by
    intro g hg
    rcases List.mem_append.mp hg with hg | hg
    · exact h1 g hg
    · rcases List.mem_singleton.mp hg with rfl
      exact hfb
  have hlog : ∀ g ∈ acc.2 ++ [makeFactor v ev bn], boundedF g := by
    intro g hg
    rcases List.mem_append.mp hg with hg | hg
    · exact h2 g hg
    · rcases List.mem_singleton.mp hg with rfl
      exact hfb
  unfold elimStep
  split
  · rename_i hcond
    split
    · exact ⟨hfs, hlog⟩
    · have hvev : ev v = none := Option.isNone_iff_eq_none.mp hcond.2
      have hvmem : v ∈ (makeFactor v ev bn).vars := mem_makeFactor_vars_self hvev
      have hmemfil : makeFactor v ev bn
          ∈ (acc.1 ++ [makeFactor v ev bn]).filter (fun g => v ∈ g.vars) := by
        refine List.mem_filter.mpr
          ⟨List.mem_append.mpr (Or.inr (List.mem_singleton.mpr rfl)), ?_⟩
        simp [hvmem]
      have hfilb : ∀ g ∈ (acc.1 ++ [makeFactor v ev bn]).filter (fun g => v ∈ g.vars),
          boundedF g := fun g hg => hfs g (List.mem_of_mem_filter hg)
      have hfvne : (makeFactor v ev bn).vars ≠ [] := List.ne_nil_of_mem hvmem
      have hsummed : boundedF (sumOutVar
          (productList ((acc.1 ++ [makeFactor v ev bn]).filter (fun g => v ∈ g.vars))) v) :=
        sumOutVar_bounded_of (productList_bounded hfilb)
          (productList_le_factor hmemfil hfilb hfvne)
          (makeFactor_sum1 hvev hcpt hnp)
      constructor
      · intro g hg
        rcases List.mem_append.mp hg with hg | hg
        · exact hfs g (List.mem_of_mem_filter hg)
        · rcases List.mem_singleton.mp hg with rfl
          exact hsummed
      · intro g hg
        rcases List.mem_append.mp hg with hg | hg
        · rcases List.mem_append.mp hg with hg | hg
          · exact hlog g hg
          · exact partialProds_bounded hfilb g hg
        · rcases List.mem_singleton.mp hg with rfl
          exact hsummed
  · exact ⟨hfs, hlog⟩

theorem elimCore_bounds (X : String) (ev : String → Option Bool) {bn : BayesNetM}
    (hvalid : validNet bn) :
    (∀ f ∈ (elimCore X ev bn).1, boundedF f)
      ∧ (∀ f ∈ (elimCore X ev bn).2, boundedF f) := by
  have hmain : ∀ (vs : List String), (∀ v ∈ vs, v ∈ bn.vars) →
      ∀ (acc : List FactorM × List FactorM),
      (∀ f ∈ acc.1, boundedF f) → (∀ f ∈ acc.2, boundedF f) →
      (∀ f ∈ (vs.foldl (elimStep X ev bn) acc).1, boundedF f)
        ∧ (∀ f ∈ (vs.foldl (elimStep X ev bn) acc).2, boundedF f) := by
    intro vs
    induction vs with
    | nil => intro _ acc hh1 hh2; exact ⟨hh1, hh2⟩
    | cons v vs ih =>
      intro hsub acc hh1 hh2
      rw [List.foldl_cons]
      have hv : v ∈ bn.vars := hsub v (List.mem_cons_self v vs)
      have hstep := elimStep_bounded X ev hvalid hv hh1 hh2
      exact ih (fun w hw => hsub w (List.mem_cons_of_mem v hw)) _ hstep.1 hstep.2
  unfold elimCore
  refine hmain bn.vars.reverse (fun v hv => List.mem_reverse.mp hv) ([], []) ?_ ?_
  · intro f hf; exact absurd hf (List.not_mem_nil f)
  · intro f hf; exact absurd hf (List.not_mem_nil f)

/-- Snapping one member of an exact complementary pair snaps the other the
opposite way, so `clamp_prob` preserves a sum that is exactly `1`. -/
theorem clampProb_pair_sum {x y : ℚ} (h : x + y = 1) :
    clampProb x + clampProb y = 1 := by
  have heps : (0 : ℚ) < eps := by norm_num [eps]
  unfold clampProb
  by_cases h1 : x < 0 ∧ -eps < x
  · have hy : 1 < y ∧ y < 1 + eps := ⟨by linarith [h1.1], by linarith [h1.2]⟩
    have hy1 : ¬(y < 0 ∧ -eps < y) := fun h3 => by linarith [h3.1, hy.1]
    rw [if_pos h1, if_neg hy1, if_pos hy]
    norm_num
  · by_cases h2 : 1 < x ∧ x < 1 + eps
    · have hy : y < 0 ∧ -eps < y := ⟨by linarith [h2.1], by linarith [h2.2]⟩
      rw [if_neg h1, if_pos h2, if_pos hy]
      norm_num
    · have hy1 : ¬(y < 0 ∧ -eps < y) := by
        rintro ⟨hya, hyb⟩
        exact h2 ⟨by linarith, by linarith⟩
      have hy2 : ¬(1 < y ∧ y < 1 + eps) := by
        rintro ⟨hya, hyb⟩
        exact h1 ⟨by linarith, by linarith⟩
      rw [if_neg h1, if_neg h2, if_neg hy1, if_neg hy2]
      exact h

/-- `normalize` output sums to `1` exactly whenever it succeeds. -/
theorem normalizeF_sum {f : FactorM} {p q : ℚ}
    (h : normalizeF f = .ok (p, q)) : p + q = 1 := by
  unfold normalizeF at h
  by_cases hlen : f.vars.length = 1
  · rw [if_pos hlen] at h
    by_cases htot : f.table [true] + f.table [false] ≤ 0
    · rw [if_pos htot] at h
      exact absurd h (by simp)
    · rw [if_neg htot] at h
      have hpq : clampProb (f.table [true] / (f.table [true] + f.table [false])) = p
          ∧ clampProb (f.table [false] / (f.table [true] + f.table [false])) = q := by
        have h2 := Except.ok.inj h
        exact ⟨congrArg Prod.fst h2, congrArg Prod.snd h2⟩
      have htotpos : 0 < f.table [true] + f.table [false] := lt_of_not_le htot
      have hsum : f.table [true] / (f.table [true] + f.table [false])
          + f.table [false] / (f.table [true] + f.table [false]) = 1 := by
        rw [div_add_div_same, div_self (ne_of_gt htotpos)]
      rw [← hpq.1, ← hpq.2]
      exact clampProb_pair_sum hsum
  · rw [if_neg hlen] at h
    exact absurd h (by simp)

/-- On the engine path `ask_if_true` computes `not (bool, set)`, which is
`False` for every tuple, so the answer reduces to the first fast path alone:
`True` exactly when every query literal is a stored unit clause. -/
theorem askIfTrue_eq_all_units (kb : KnowledgeBase) (query : List Literal) :
    askIfTrue kb query = query.all (fun l => ({l} : Clause) ∈ kb.clauses) := by
  unfold askIfTrue
  by_cases h : query.all (fun l => ({l} : Clause) ∈ kb.clauses) = true
  · rw [if_pos h, h]
  · rw [if_neg h, Bool.eq_false_iff.mpr h]
    by_cases h2 : query.any (fun l => ({litNeg l} : Clause) ∈ kb.clauses) = true
    · rw [if_pos h2]
    · rw [if_neg h2]
      rfl

/-!  ### The claims -/

set_option maxRecDepth 1000000

/-- Claim C1: the specification says the engine path of `ask_if_true` returns
`True` iff the clause set plus the negated query literals is unsatisfiable.
The code applies `not` to the engine's `(bool, set)` tuple, which is always
truthy, so the engine path always answers `False`.  `kb1` entails `P_1_1`
(the clause set with `¬P_1_1` added is unsatisfiable) and neither fast path
applies, yet `ask_if_true([P_1_1])` is `False`. -/
theorem c1_ask_if_true_engine_path :
    askIfTrue kb1 [pit 1 1] = false
    ∧ ¬ ([pit 1 1].all (fun l => ({l} : Clause) ∈ kb1.clauses) = true)
    ∧ ¬ ([pit 1 1].any (fun l => ({litNeg l} : Clause) ∈ kb1.clauses) = true)
    ∧ ¬ satSet (kb1.clauses ∪ {({litNeg (pit 1 1)} : Clause)}) := by
  refine ⟨by decide, by decide, by decide, ?_⟩
  rintro ⟨v, hv⟩
  have hmem : ({pit 1 1, pit 2 2} : Clause) ∈ kb1.clauses ∪ {({litNeg (pit 1 1)} : Clause)}
      ∧ ({pit 1 1, litNeg (pit 2 2)} : Clause)
          ∈ kb1.clauses ∪ {({litNeg (pit 1 1)} : Clause)}
      ∧ ({litNeg (pit 1 1)} : Clause) ∈ kb1.clauses ∪ {({litNeg (pit 1 1)} : Clause)} := by
    decide
  obtain ⟨hm1, hm2, hm3⟩ := hmem
  have hA : v (pit 1 1).name = false := by
    rcases hv _ hm3 with ⟨l, hl, hval⟩
    rcases Finset.mem_singleton.mp hl with rfl
    exact hval
  have hB : v (pit 2 2).name = true := by
    rcases hv _ hm1 with ⟨l, hl, hval⟩
    rcases Finset.mem_insert.mp hl with rfl | hl
    · have h : v (pit 1 1).name = true := hval
      rw [hA] at h
      exact absurd h (by decide)
    · rcases Finset.mem_singleton.mp hl with rfl
      exact hval
  rcases hv _ hm2 with ⟨l, hl, hval⟩
  rcases Finset.mem_insert.mp hl with rfl | hl
  · have h : v (pit 1 1).name = true := hval
    rw [hA] at h
    exact absurd h (by decide)
  · rcases Finset.mem_singleton.mp hl with rfl
    have h : v (pit 2 2).name = false := hval
    rw [hB] at h
    exact absurd h (by decide)

/-- Claim C2: the specification says `ask_if_inconsistent(query)` returns
`True` iff KB ∪ query is unsatisfiable, and that the scenario-B query of four
pit-free neighbours answers `True`.  The code hands the engine a list of
`Clause`s where it expects `Literal`s: with an all-unit query the engine
reaches `lit.name` on a `Clause` and raises `AttributeError` instead.  The
union is indeed unsatisfiable, so the specified answer would have been
`True`. -/
theorem c2_ask_if_inconsistent_crashes :
    askIfInconsistent kbB queryB = Except.error PyErr.attributeError
    ∧ ¬ satSet (kbB.clauses ∪ queryB.toFinset) := by
  refine ⟨by decide, ?_⟩
  rintro ⟨v, hv⟩
  have hmem : ({pit 0 1, pit 1 0, pit 1 2, pit 2 1} : Clause)
        ∈ kbB.clauses ∪ queryB.toFinset
      ∧ ({litNeg (pit 0 1)} : Clause) ∈ kbB.clauses ∪ queryB.toFinset
      ∧ ({litNeg (pit 2 1)} : Clause) ∈ kbB.clauses ∪ queryB.toFinset
      ∧ ({litNeg (pit 1 0)} : Clause) ∈ kbB.clauses ∪ queryB.toFinset
      ∧ ({litNeg (pit 1 2)} : Clause) ∈ kbB.clauses ∪ queryB.toFinset := by
    decide
  obtain ⟨hm0, hm1, hm2, hm3, hm4⟩ := hmem
  have h01 : v (pit 0 1).name = false := by
    rcases hv _ hm1 with ⟨l, hl, hval⟩
    rcases Finset.mem_singleton.mp hl with rfl
    exact hval
  have h21 : v (pit 2 1).name = false := by
    rcases hv _ hm2 with ⟨l, hl, hval⟩
    rcases Finset.mem_singleton.mp hl with rfl
    exact hval
  have h10 : v (pit 1 0).name = false := by
    rcases hv _ hm3 with ⟨l, hl, hval⟩
    rcases Finset.mem_singleton.mp hl with rfl
    exact hval
  have h12 : v (pit 1 2).name = false := by
    rcases hv _ hm4 with ⟨l, hl, hval⟩
    rcases Finset.mem_singleton.mp hl with rfl
    exact hval
  rcases hv _ hm0 with ⟨l, hl, hval⟩
  rcases Finset.mem_insert.mp hl with rfl | hl
  · have h : v (pit 0 1).name = true := hval
    rw [h01] at h
    exact absurd h (by decide)
  rcases Finset.mem_insert.mp hl with rfl | hl
  · have h : v (pit 1 0).name = true := hval
    rw [h10] at h
    exact absurd h (by decide)
  rcases Finset.mem_insert.mp hl with rfl | hl
  · have h : v (pit 1 2).name = true := hval
    rw [h12] at h
    exact absurd h (by decide)
  · rcases Finset.mem_singleton.mp hl with rfl
    have h : v (pit 2 1).name = true := hval
    rw [h21] at h
    exact absurd h (by decide)

/-- Claim C3 counterexample: on `S0` the propagation pass simplifies
`¬P_1_1 ∨ ¬P_2_2` to the empty clause, yet `refresh` completes normally and
returns the two units with the empty clause silently discarded — no failure
is signalled. -/
theorem c3_refresh_silently_drops_empty :
    simplifyCl {litNeg (pit 1 1), litNeg (pit 2 2)} (unitLits S0) = some (∅ : Clause)
    ∧ refresh S0 = {({pit 1 1} : Clause), {pit 2 2}}
    ∧ (∅ : Clause) ∉ refresh S0 := by
  decide

/-- Claim C3 (amended): `refresh` is total and signals no failure; whenever
the propagation loop runs at all (the model of unit clauses is non-empty),
any clause that simplifies to the empty clause is silently dropped, so the
result never contains the empty clause. -/
theorem c3_refresh_total_and_discards (S : Finset Clause)
    (hu : unitLits S ≠ ∅) : (∅ : Clause) ∉ refresh S :=
  refresh_no_empty (weight S + 1) S (Nat.lt_succ_self _) hu

/-- Claim C3 witness: the amended statement at the concrete store `S0`. -/
theorem c3_refresh_total_witness :
    unitLits S0 ≠ ∅ ∧ (∅ : Clause) ∉ refresh S0 :=
  ⟨by decide, c3_refresh_total_and_discards S0 (by decide)⟩

/-- Claim C4 counterexample: `Literal | Literal` performs no tautology check —
`P_1_1 | ¬P_1_1` is the binding two-literal clause — and the branches that do
detect the tautology (`Literal | Clause`, `Clause | Clause`) return
`Clause()`, the very same value as the always-false empty clause rather than
a distinct always-true marker. -/
theorem c4_or_no_tautology_marker :
    litOrLit (pit 1 1) (litNeg (pit 1 1)) = {pit 1 1, litNeg (pit 1 1)}
    ∧ (litOrLit (pit 1 1) (litNeg (pit 1 1))).card = 2
    ∧ litOrClause (pit 1 1) {litNeg (pit 1 1)} = (∅ : Clause)
    ∧ clauseOrClause {pit 1 1} {litNeg (pit 1 1)} = (∅ : Clause) := by
  decide

/-- Claim C4 (amended): although `A | ~A` is stored as a binding two-literal
clause, telling it to a refresh-fixpoint knowledge base does not change the
`ask_if_true` answer of any query whose literals mention other symbols. -/
theorem c4_tell_tautology_preserves_asks (kb : KnowledgeBase) (A : Literal)
    (hfix : refresh kb.clauses = kb.clauses) (query : List Literal)
    (hq : ∀ m ∈ query, m.name ≠ A.name) :
    askIfTrue (tellClauses kb [litOrLit A (litNeg A)]) query = askIfTrue kb query := by
  have hall : ∀ (q : List Literal), (∀ m ∈ q, m.name ≠ A.name) →
      q.all (fun l => ({l} : Clause) ∈ (tellClauses kb [litOrLit A (litNeg A)]).clauses)
        = q.all (fun l => ({l} : Clause) ∈ kb.clauses) := by
    intro q
    induction q with
    | nil => intro _; rfl
    | cons m q ih =>
      intro hq2
      simp only [List.all_cons]
      rw [ih (fun x hx => hq2 x (List.mem_cons_of_mem m hx))]
      have hiff := tell_taut_units kb A hfix m (hq2 m (List.mem_cons_self m q))
      rw [decide_eq_decide.mpr hiff]
  rw [askIfTrue_eq_all_units, askIfTrue_eq_all_units]
  exact hall query hq

/-- Claim C4 witness: the amended statement at a fresh knowledge base, the
tautology over `P_0_0` and the query `[Glitter]`. -/
theorem c4_taut_witness :
    refresh (kbNew 4 1).clauses = (kbNew 4 1).clauses
    ∧ (∀ m ∈ [glitterLit], m.name ≠ (pit 0 0).name)
    ∧ askIfTrue (tellClauses (kbNew 4 1) [litOrLit (pit 0 0) (litNeg (pit 0 0))])
          [glitterLit]
        = askIfTrue (kbNew 4 1) [glitterLit] :=
  ⟨by decide, by decide,
    c4_tell_tautology_preserves_asks (kbNew 4 1) (pit 0 0) (by decide) [glitterLit]
      (by decide)⟩

/-- Claim C5: scenario A — after `tell_percept(0, 0, {breeze: False, stench:
False, glitter: False})` on a fresh 4×4 knowledge base, both
`ask_if_true([~pit(1, 0)])` and `ask_if_true([~pit(0, 1)])` return `True`
(the answers come from the first fast path: propagation stored both negated
pits as unit facts). -/
theorem c5_scenario_a :
    tellPercept (kbNew 4 2) 0 0 perceptsA = Except.ok kbA
    ∧ askIfTrue kbA [litNeg (pit 1 0)] = true
    ∧ askIfTrue kbA [litNeg (pit 0 1)] = true := by
  refine ⟨by decide, by decide, by decide⟩

/-- Claim C6: every factor constructed during `elimination_ask` — each
`make_factor` result, each binary `pointwise_product` (including the final
reduction), each `sum_out` result — has all table values in `[0, 1]`, for any
network whose conditional probability tables hold probabilities and whose
nodes are not their own parents (the data model of the spec). -/
theorem c6_elimination_factors_bounded (X : String) (ev : String → Option Bool)
    (bn : BayesNetM) (hvalid : validNet bn) :
    ∀ f ∈ elimFactorLog X ev bn, ∀ key, 0 ≤ f.table key ∧ f.table key ≤ 1 := by
  have h := elimCore_bounds X ev hvalid
  intro f hf
  unfold elimFactorLog at hf
  rcases List.mem_append.mp hf with hf | hf
  · rcases List.mem_append.mp hf with hf | hf
    · exact h.2 f hf
    · exact partialProds_bounded h.1 f hf
  · rcases List.mem_singleton.mp hf with rfl
    exact productList_bounded h.1

/-- Claim C6 witness: the bound at the one-node network `netC` with empty
evidence. -/
theorem c6_bounded_witness :
    validNet netC ∧ ∀ f ∈ elimFactorLog "Pit" evN netC,
      ∀ key, 0 ≤ f.table key ∧ f.table key ≤ 1 := by
  have hvalid : validNet netC := by
    intro v hv
    refine ⟨fun key => ⟨?_, ?_⟩, List.not_mem_nil v⟩
    · show (0 : ℚ) ≤ 1/5
      norm_num
    · show (1 : ℚ)/5 ≤ 1
      norm_num
  exact ⟨hvalid, c6_elimination_factors_bounded "Pit" evN netC hvalid⟩

/-- Claim C7 counterexample: telling the clause `P_1_1 ∨ P_2_2` to `kbC7`
succeeds, but telling it again does not reproduce the same knowledge base —
the first tell consumed the stored negated units and propagation re-derived
them, so the second tell deletes them again and keeps the clause binding. -/
theorem c7_tell_not_idempotent :
    tell kbC7 [TellArg.clause c7clause] = Except.ok (tellClauses kbC7 [c7clause])
    ∧ tell (tellClauses kbC7 [c7clause]) [TellArg.clause c7clause]
        ≠ Except.ok (tellClauses kbC7 [c7clause]) := by
  decide

/-- Claim C7 (amended): `tell` is idempotent for `Literal` arguments and for
unit `Clause` arguments: the second tell returns the knowledge base produced
by the first unchanged. -/
theorem c7_tell_unit_idempotent (kb : KnowledgeBase) (l : Literal) (a : TellArg)
    (ha : a = TellArg.lit l ∨ a = TellArg.clause {l}) :
    tell kb [a] = Except.ok (tellClauses kb [{l}])
    ∧ tell (tellClauses kb [{l}]) [a] = Except.ok (tellClauses kb [{l}]) := by
  have hmap : [a].map TellArg.toClause = [({l} : Clause)] := by
    rcases ha with rfl | rfl <;> rfl
  have hvalid : [a].all (fun x => ! x.isOther) = true := by
    rcases ha with rfl | rfl <;> rfl
  constructor
  · unfold tell
    rw [if_pos hvalid, hmap]
  · unfold tell
    rw [if_pos hvalid, hmap, tellClauses_unit_idem]

/-- Claim C7 witness: the amended statement at a fresh knowledge base and the
literal `B_0_0`. -/
theorem c7_unit_idem_witness :
    (TellArg.lit (breeze 0 0) = TellArg.lit (breeze 0 0)
      ∨ TellArg.lit (breeze 0 0) = TellArg.clause {breeze 0 0})
    ∧ tell (kbNew 4 1) [TellArg.lit (breeze 0 0)]
        = Except.ok (tellClauses (kbNew 4 1) [{breeze 0 0}])
    ∧ tell (tellClauses (kbNew 4 1) [{breeze 0 0}]) [TellArg.lit (breeze 0 0)]
        = Except.ok (tellClauses (kbNew 4 1) [{breeze 0 0}]) := by
  have h := c7_tell_unit_idempotent (kbNew 4 1) (breeze 0 0)
    (TellArg.lit (breeze 0 0)) (Or.inl rfl)
  exact ⟨Or.inl rfl, h.1, h.2⟩

/-- Claim C8: whenever `elimination_ask` succeeds, the returned `P(True)` and
`P(False)` sum to exactly `1`: the normalized entries sum to `1` before
clamping, and `clamp_prob` preserves an exact complementary pair. -/
theorem c8_elimination_ask_normalized (X : String) (ev : String → Option Bool)
    (bn : BayesNetM) (p q : ℚ)
    (h : eliminationAsk X ev bn = .ok (p, q)) : p + q = 1 := by
  unfold eliminationAsk at h
  by_cases hX : (ev X).isSome = true
  · rw [if_pos hX] at h
    exact absurd h (by simp)
  · rw [if_neg hX] at h
    exact normalizeF_sum h

/-- Claim C8 witness: on the one-node network `netC` the query returns
`(1/5, 4/5)`, which sums to `1`. -/
theorem c8_normalized_witness :
    eliminationAsk "Pit" evN netC = Except.ok (1/5, 4/5)
      ∧ (1/5 : ℚ) + 4/5 = 1 := by
  have hid15 : clampProb ((1 : ℚ)/5) = 1/5 :=
    clampProb_id (by norm_num) (by norm_num)
  have hid45 : clampProb ((4 : ℚ)/5) = 4/5 :=
    clampProb_id (by norm_num) (by norm_num)
  have htT : (makeFactor "Pit" evN netC).table [true] = 1/5 := by
    show clampProb (clampProb ((1 : ℚ)/5)) = 1/5
    rw [hid15, hid15]
  have htF : (makeFactor "Pit" evN netC).table [false] = 4/5 := by
    show clampProb (1 - clampProb ((1 : ℚ)/5)) = 4/5
    rw [hid15, show (1 : ℚ) - 1/5 = 4/5 by norm_num, hid45]
  have h : eliminationAsk "Pit" evN netC = Except.ok (1/5, 4/5) := by
    show normalizeF (productList (elimCore "Pit" evN netC).1) = Except.ok (1/5, 4/5)
    have hfac : productList (elimCore "Pit" evN netC).1 = makeFactor "Pit" evN netC := rfl
    rw [hfac]
    unfold normalizeF
    rw [if_pos (show (makeFactor "Pit" evN netC).vars.length = 1 from rfl)]
    rw [htT, htF]
    rw [if_neg (show ¬((1 : ℚ)/5 + 4/5 ≤ 0) by norm_num)]
    rw [show (1 : ℚ)/5 + 4/5 = 1 by norm_num, div_one, div_one]
    rw [hid15, hid45]
  exact ⟨h, c8_elimination_ask_normalized "Pit" evN netC (1/5) (4/5) h⟩

/-- Claim C9: `tell` with any argument that is neither a `Literal` nor a
`Clause` raises `ValueError` before touching the store: the validation loop
runs before any mutation, so the knowledge base passed in is unchanged (the
embedding returns only the error, never a new store). -/
theorem c9_tell_rejects_malformed (kb : KnowledgeBase) (args : List TellArg)
    (h : TellArg.other ∈ args) : tell kb args = Except.error PyErr.valueError := by
  have hfail : ¬ (args.all (fun a => ! a.isOther) = true) := by
    intro hall
    have h2 := List.all_eq_true.mp hall TellArg.other h
    simp [TellArg.isOther] at h2
  unfold tell
  rw [if_neg hfail]

/-- Claim C9 witness: the rejection at a fresh knowledge base and the
single malformed argument. -/
theorem c9_reject_witness :
    TellArg.other ∈ [TellArg.other]
    ∧ tell (kbNew 4 1) [TellArg.other] = Except.error PyErr.valueError :=
  ⟨List.mem_singleton.mpr rfl,
    c9_tell_rejects_malformed (kbNew 4 1) [TellArg.other] (List.mem_singleton.mpr rfl)⟩

/-- Claim C10: for every grid size and wumpus count the fresh knowledge base
holds exactly the three negated unit facts `¬W_0_0`, `¬P_0_0` and
`¬Glitter` — three clauses in all. -/
theorem c10_kbNew_three_units (size k : Nat) :
    (kbNew size k).clauses
      = {({litNeg (wumpus 0 0)} : Clause), {litNeg (pit 0 0)}, {litNeg glitterLit}}
    ∧ (kbNew size k).clauses.card = 3 := by
  have hcl : (kbNew size k).clauses = (kbNew 0 0).clauses := rfl
  rw [hcl]
  exact ⟨by decide, by decide⟩

end WumpusKB
